import Mathlib

/-!
Verification of the text-normalization pipeline of the wispr-local dictation
utility: the deterministic rule formatter (`src/formatter.js`) and the two
LLM-refinement guards (`src/structureJudge.js` and its earlier variant).

Strings are modelled as `List Char`.  JavaScript string/regex operations are
embedded as executable Lean functions over `List Char`:
  * `String.prototype.toLowerCase` / `toUpperCase` are modelled by
    `Char.toLower` / `Char.toUpper` (ASCII case mapping; characters outside
    ASCII have no case mapping in the model — all characters the pipeline
    cases on are ASCII),
  * the regex class `\s` is `jsWhitespace`, the class `\w` is `jsWordChar`,
  * `replace(/\s+/g, ' ')` is `collapseWS`, `trim()` is `jsTrim`,
  * `split(c)` is `List.splitOn c`, `join` is `List.intercalate`.
-/

/-- JavaScript regex class `\s` (whitespace), restricted to the code points
that occur in practice plus the common Unicode spaces. -/
def jsWhitespace (c : Char) : Bool :=
  c = ' ' || c = '\t' || c = '\n' || c = '\r' || c = '\x0b' || c = '\x0c' ||
  c = ' ' || c = '﻿'

/-- Lower-case ASCII letter or digit: the characters kept by the
`[^a-z0-9\s]` strip in `getWords` (after lower-casing). -/
def lowerAlnum (c : Char) : Bool :=
  ('a' ≤ c && c ≤ 'z') || ('0' ≤ c && c ≤ '9')

/-- Characters surviving `replace(/[^a-z0-9\s]/g, '')` on lower-cased text. -/
def keepChar (c : Char) : Bool :=
  lowerAlnum c || jsWhitespace c

/-- JavaScript regex class `\w` = `[A-Za-z0-9_]`, used for `\b` boundaries. -/
def jsWordChar (c : Char) : Bool :=
  ('a' ≤ c && c ≤ 'z') || ('A' ≤ c && c ≤ 'Z') || ('0' ≤ c && c ≤ '9') || c = '_'

/-- `replace(/\s+/g, ' ')`: every maximal run of whitespace becomes a single
space.  The run is consumed by skipping whitespace while more follows, and a
single `' '` is emitted at the last character of the run. -/
def collapseWS : List Char → List Char
  | [] => []
  | [c] => if jsWhitespace c then [' '] else [c]
  | c :: d :: rest =>
    if jsWhitespace c then
      if jsWhitespace d then collapseWS (d :: rest)
      else ' ' :: d :: collapseWS rest
    else c :: collapseWS (d :: rest)

/-- `String.prototype.trim()`: drop whitespace from both ends. -/
def jsTrim (cs : List Char) : List Char :=
  ((cs.dropWhile jsWhitespace).reverse.dropWhile jsWhitespace).reverse

/-- Prepend a character onto the first run of a run list (starting a new run
when there is none). -/
def consHead (c : Char) : List (List Char) → List (List Char)
  | [] => [[c]]
  | r :: rs => (c :: r) :: rs

/-- Maximal runs of characters satisfying `p`; characters not satisfying `p`
act as separators and are dropped. -/
def runsBy (p : Char → Bool) : List Char → List (List Char)
  | [] => []
  | [c] => if p c then [[c]] else []
  | c :: d :: rest =>
    if p c then
      if p d then consHead c (runsBy p (d :: rest))
      else [c] :: runsBy p (d :: rest)
    else runsBy p (d :: rest)

/-- The list of maximal alphanumeric words of a lower-cased, stripped text. -/
def alnumRuns : List Char → List (List Char) := runsBy lowerAlnum

/-- `getWords` from the strict structure-judge variant (`part_005`):
lower-case, strip every character that is not `[a-z0-9\s]`, collapse
whitespace to single spaces, trim, and split on `' '`.
An empty input gives `[]`; note that a non-empty input whose normalization is
empty gives `[[]]`, because JavaScript `''.split(' ')` is `['']`. -/
def getWords (text : List Char) : List (List Char) :=
  if text = [] then []
  else (jsTrim (collapseWS ((text.map Char.toLower).filter keepChar))).splitOn ' '

/-- `validateContent` from the strict structure-judge variant (`part_005`):
accept exactly when the normalized word sequences have the same length and
agree at every index. -/
def validateContent (raw structured : List Char) : Bool :=
  let rawWords := getWords raw
  let structWords := getWords structured
  if rawWords.length ≠ structWords.length then false
  else (rawWords.zip structWords).all fun p => p.1 == p.2

/-- `getWordCount` from `src/structureJudge.js`: `0` for empty text, else the
length of `text.trim().split(/\s+/)`.  For whitespace-only text the trimmed
string is empty and JavaScript `''.split(/\s+/)` is `['']`, so the count
is `1`; otherwise it is the number of maximal non-whitespace runs. -/
def getWordCount (text : List Char) : Nat :=
  if text = [] then 0
  else
    let t := jsTrim text
    if t = [] then 1 else (runsBy (fun c => !jsWhitespace c) t).length

/-- `safetyCheck` from `src/structureJudge.js` (the loose word-count policy).
The JavaScript float ratio `diff / Math.max(rawCount, 1)` and the literal
`0.4` are modelled exactly in `ℚ`; for the word counts reachable from actual
strings the double-precision comparison agrees with the rational one. -/
def safetyCheck (raw refined : List Char) : Bool :=
  let rawCount := getWordCount raw
  let refinedCount := getWordCount refined
  if refinedCount = 0 ∧ rawCount > 0 then false
  else
    let diff : ℚ := |(rawCount : ℚ) - (refinedCount : ℚ)|
    let ratio : ℚ := diff / max (rawCount : ℚ) 1
    if ratio > (2 : ℚ) / 5 then false else true

/-! ## Model of the HTTP call in `callServer` / `improve`

`callServer` posts a completion request and either resolves with the trimmed
message content or rejects (transport error, timeout, non-200 status,
unparsable body).  The network outcome is modelled as data; `callServer` maps
it to `Except`, mirroring promise resolution/rejection. -/

/-- Body of an HTTP 200 response: either not valid JSON, or parsed JSON whose
`choices[0].message.content` path yields an optional string (the `|| ''`
default applies when the path is absent). -/
inductive RespBody where
  | invalid : RespBody
  | valid : Option (List Char) → RespBody

/-- Outcome of the underlying HTTP request. -/
inductive CallOutcome where
  | transportErr : CallOutcome
  | timeoutErr : CallOutcome
  | response : Nat → RespBody → CallOutcome

/-- The ways `callServer` rejects. -/
inductive CallErr where
  | transport : CallErr
  | timedOut : CallErr
  | badStatus : Nat → CallErr
  | badJson : CallErr

/-- `callServer` from both structure-judge variants: reject on transport
error or timeout; reject on a non-200 status; on a 200 response parse the
body, rejecting when it is not JSON, and otherwise resolve with
`(json.choices?.[0]?.message?.content || '').trim()`. -/
def callServer : CallOutcome → Except CallErr (List Char)
  | .transportErr => .error .transport
  | .timeoutErr => .error .timedOut
  | .response status body =>
    if status ≠ 200 then .error (.badStatus status)
    else
      match body with
      | .invalid => .error .badJson
      | .valid content => .ok (jsTrim (content.getD []))

/-- `improve` from the strict variant (`part_005`): on any rejection return
the soft candidates; on success return the model output when
`validateContent` accepts it, else the soft candidates. -/
def improve (rawText softCandidates : List Char) (outcome : CallOutcome) :
    List Char :=
  match callServer outcome with
  | .error _ => softCandidates
  | .ok result => if validateContent rawText result then result else softCandidates

/-- `improve` from `src/structureJudge.js`: same control flow with the loose
`safetyCheck` validation. -/
def improveSJ (rawText softCandidates : List Char) (outcome : CallOutcome) :
    List Char :=
  match callServer outcome with
  | .error _ => softCandidates
  | .ok result => if safetyCheck rawText result then result else softCandidates

/-! ## `src/formatter.js`

Pass A applies an ordered list of case-insensitive whole-word regexes of the
shape `\btok1\s+tok2...\b` (with top-level alternation), each as a global
replace.  The engine scans left to right; `\b` before a match is equivalent
to "the previous character is not a word character" because every pattern
starts with a word character. -/

/-- Case-insensitive literal match of `tok` at the front of `s`; returns the
remainder on success. -/
def matchLit : List Char → List Char → Option (List Char)
  | [], s => some s
  | _ :: _, [] => none
  | t :: ts, c :: cs =>
    if Char.toLower c = Char.toLower t then matchLit ts cs else none

/-- Match a sequence of literal word tokens separated by `\s+` (one or more
whitespace characters, matched greedily); returns the number of characters
consumed. -/
def matchSeq : List (List Char) → List Char → Option Nat
  | [], _ => none
  | [t], s =>
    match matchLit t s with
    | some r => some (s.length - r.length)
    | none => none
  | t :: t2 :: ts, s =>
    match matchLit t s with
    | none => none
    | some r =>
      let ws := r.takeWhile jsWhitespace
      if ws.isEmpty then none
      else
        match matchSeq (t2 :: ts) (r.drop ws.length) with
        | some n => some ((s.length - r.length) + ws.length + n)
        | none => none

/-- The `\b` at the end of a pattern: the next character, if any, is not a
word character (the previous one always is — patterns end in word chars). -/
def tailBoundary : List Char → Bool
  | [] => true
  | c :: _ => !jsWordChar c

/-- Try the alternatives of a rule in order at the current position; an
alternative whose trailing `\b` fails is abandoned and the next one tried. -/
def tryAlts : List (List (List Char)) → List Char → Option Nat
  | [], _ => none
  | alt :: others, s =>
    match matchSeq alt s with
    | some n => if tailBoundary (s.drop n) then some n else tryAlts others s
    | none => tryAlts others s

/-- One spoken-command rule: whole-word alternatives and a literal
replacement string. -/
structure CommandRule where
  alts : List (List (List Char))
  repl : List Char

/-- Global replace for one rule.  `prevW` records whether the previous
character is a word character (in which case `\b` fails and no match is
attempted).  After a match the last consumed character is a word character,
so scanning resumes with `prevW = true`.  The fuel is the input length;
every step consumes at least one character. -/
def replaceGo (rule : CommandRule) : Nat → Bool → List Char → List Char
  | 0, _, s => s
  | _ + 1, _, [] => []
  | fuel + 1, prevW, c :: rest =>
    if prevW then c :: replaceGo rule fuel (jsWordChar c) rest
    else
      match tryAlts rule.alts (c :: rest) with
      | some n => rule.repl ++ replaceGo rule fuel true ((c :: rest).drop n)
      | none => c :: replaceGo rule fuel (jsWordChar c) rest

/-- `text.replace(rule.pattern, rule.replacement)` for one command rule. -/
def replaceAll (rule : CommandRule) (s : List Char) : List Char :=
  replaceGo rule s.length false s

/-- The `COMMANDS` table of `src/formatter.js`, in source order. -/
def COMMANDS : List CommandRule := [
  ⟨[["new".toList, "paragraph".toList]], "\n\n".toList⟩,
  ⟨[["new".toList, "line".toList]], "\n".toList⟩,
  ⟨[["next".toList, "line".toList]], "\n".toList⟩,
  ⟨[["next".toList, "point".toList]], "\n•".toList⟩,
  ⟨[["bullet".toList]], "•".toList⟩,
  ⟨[["point".toList, "one".toList], ["point".toList, "1".toList]], "\n1.".toList⟩,
  ⟨[["point".toList, "two".toList], ["point".toList, "2".toList]], "\n2.".toList⟩,
  ⟨[["comma".toList]], ",".toList⟩,
  ⟨[["period".toList], ["full".toList, "stop".toList]], ".".toList⟩]

/-- Pass A: apply every command rule, in order, each globally. -/
def applyCommands (s : List Char) : List Char :=
  COMMANDS.foldl (fun t rule => replaceAll rule t) s

/-- Sentence terminators `.` `?` `!`. -/
def isTerminator (c : Char) : Bool := c = '.' || c = '?' || c = '!'

/-- Lower-case ASCII letter, the regex class `[a-z]`. -/
def isLowerAZ (c : Char) : Bool := 'a' ≤ c && c ≤ 'z'

/-- `text.charAt(0).toUpperCase() + text.slice(1)`. -/
def upperFirst : List Char → List Char
  | [] => []
  | c :: rest => Char.toUpper c :: rest

/-- `replace(/([.?!]\s*)([a-z])/g, sep + upper)`: after a terminator, the
greedy `\s*` reaches the first non-whitespace character; the match succeeds
exactly when that character is a lower-case letter, which is upper-cased.
On failure the engine advances one character. -/
def caseAfterPunct : Nat → List Char → List Char
  | 0, s => s
  | _ + 1, [] => []
  | fuel + 1, c :: rest =>
    if isTerminator c then
      let ws := rest.takeWhile jsWhitespace
      match rest.drop ws.length with
      | d :: r2 =>
        if isLowerAZ d then c :: (ws ++ Char.toUpper d :: caseAfterPunct fuel r2)
        else c :: caseAfterPunct fuel rest
      | [] => c :: caseAfterPunct fuel rest
    else c :: caseAfterPunct fuel rest

/-- `replace(/(\n+\s*)([a-z])/g, sep + upper)`: from a leading `'\n'` the
prefix `\n+\s*` matches `'\n'` followed by any whitespace run, so the match
succeeds exactly when the first non-whitespace character after the newline
is a lower-case letter. -/
def caseAfterNewline : Nat → List Char → List Char
  | 0, s => s
  | _ + 1, [] => []
  | fuel + 1, c :: rest =>
    if c = '\n' then
      let ws := rest.takeWhile jsWhitespace
      match rest.drop ws.length with
      | d :: r2 =>
        if isLowerAZ d then c :: (ws ++ Char.toUpper d :: caseAfterNewline fuel r2)
        else c :: caseAfterNewline fuel rest
      | [] => c :: caseAfterNewline fuel rest
    else c :: caseAfterNewline fuel rest

/-- `applySentenceCasing` from `src/formatter.js`. -/
def applySentenceCasing (text : List Char) : List Char :=
  if text = [] then []
  else
    let r1 := upperFirst text
    let r2 := caseAfterPunct r1.length r1
    caseAfterNewline r2.length r2

/-- One scan of the `applyLengthBreaks` loop over `rem = text.drop i`,
carrying `counter`, `lastSpace` (`none` models `-1`), `chunkStart` and the
running `scanStart` (dead once a change happens or the scan ends, but kept
to mirror the source).  Returns `none` when no chunk exceeded the limit, or
the rewritten text together with the new scan start. -/
def lbScan (text : List Char) :
    List Char → Nat → Nat → Option Nat → Nat → Nat → Option (List Char × Nat)
  | [], _, _, _, _, _ => none
  | c :: rem, i, counter, lastSpace, chunkStart, scanAcc =>
    if c = '.' || c = '?' || c = '!' || c = '\n' then
      lbScan text rem (i+1) 0 none (i+1) (i+1)
    else
      let counter2 := counter + 1
      let lastSpace2 := if c = ' ' then some i else lastSpace
      if counter2 > 140 then
        match lastSpace2 with
        | some j =>
          if j > chunkStart then
            some (text.take j ++ '.' :: ' ' :: upperFirst (text.drop (j+1)), j+1)
          else lbScan text rem (i+1) 0 lastSpace2 chunkStart scanAcc
        | none => lbScan text rem (i+1) 0 lastSpace2 chunkStart scanAcc
      else lbScan text rem (i+1) counter2 lastSpace2 chunkStart scanAcc

/-- The `while (true)` loop of `applyLengthBreaks`, with fuel.  Each change
inserts one character and moves the scan start at least two characters
forward, so `text.length + 1` fuel always suffices (proved below). -/
def lbLoop : Nat → List Char → Nat → Option (List Char)
  | 0, _, _ => none
  | fuel + 1, text, scanStart =>
    match lbScan text (text.drop scanStart) scanStart 0 none scanStart scanStart with
    | none => some text
    | some (t2, s2) => lbLoop fuel t2 s2

/-- `applyLengthBreaks` from `src/formatter.js`. -/
def applyLengthBreaks (text : List Char) : List Char :=
  match lbLoop (text.length + 1) text 0 with
  | some r => r
  | none => text

/-- The discourse-marker keywords of `applyParagraphHeuristics`, in
alternation order (`Moving on` contains a literal space). -/
def KEYWORDS : List (List Char) :=
  ["Okay".toList, "So".toList, "Next".toList, "Moving on".toList, "Now".toList]

/-- Try each keyword (case-insensitively) at the current position, requiring
the trailing `\b`; returns the matched length. -/
def tryKw : List (List Char) → List Char → Option Nat
  | [], _ => none
  | kw :: others, s =>
    match matchLit kw s with
    | some r => if tailBoundary r then some kw.length else tryKw others s
    | none => tryKw others s

/-- `word.charAt(0).toUpperCase() + word.slice(1).toLowerCase()`. -/
def capWord : List Char → List Char
  | [] => []
  | c :: rest => Char.toUpper c :: rest.map Char.toLower

/-- Global scan for `((?:[.?!]\s+)|(?:^)|(?:\n+))(Okay|So|Next|Moving
on|Now)\b`.  At a terminator the first alternative needs a non-empty
whitespace run and then a keyword; the match is rewritten to
`punct + "\n\n" + capWord`.  The `^` alternative fires only at position 0
(`first`), and the `\n+` alternative consumes a maximal newline run; both
return the match unchanged. -/
def paraGo : Nat → Bool → List Char → List Char
  | 0, _, s => s
  | _ + 1, _, [] => []
  | fuel + 1, first, c :: rest =>
    if isTerminator c then
      let ws := rest.takeWhile jsWhitespace
      let r := rest.drop ws.length
      if ws.isEmpty then c :: paraGo fuel false rest
      else
        match tryKw KEYWORDS r with
        | some n =>
          c :: '\n' :: '\n' :: (capWord (r.take n) ++ paraGo fuel false (r.drop n))
        | none => c :: paraGo fuel false rest
    else
      match (if first then tryKw KEYWORDS (c :: rest) else none) with
      | some n => (c :: rest).take n ++ paraGo fuel false ((c :: rest).drop n)
      | none =>
        if c = '\n' then
          let run := rest.takeWhile (fun x => x = '\n')
          let r := rest.drop run.length
          match tryKw KEYWORDS r with
          | some n => c :: (run ++ r.take n ++ paraGo fuel false (r.drop n))
          | none => c :: paraGo fuel false rest
        else c :: paraGo fuel false rest

/-- `applyParagraphHeuristics` from `src/formatter.js`. -/
def applyParagraphHeuristics (text : List Char) : List Char :=
  paraGo text.length true text

/-- Space or tab, the class `[ \t]`. -/
def spTab (c : Char) : Bool := c = ' ' || c = '\t'

/-- Emit a completed `[ \t]` run: runs of two or more collapse to one
space, a single space or tab is kept as is. -/
def emitRun (run : List Char) : List Char := if run.length ≥ 2 then [' '] else run

/-- Scan for `replace(/[ \t]{2,}/g, ' ')`, accumulating the current run. -/
def csGo : List Char → List Char → List Char
  | run, [] => emitRun run
  | run, c :: rest =>
    if spTab c then csGo (run ++ [c]) rest
    else emitRun run ++ c :: csGo [] rest

/-- `replace(/[ \t]{2,}/g, ' ')`. -/
def collapseSpaceRuns (s : List Char) : List Char := csGo [] s

/-- `split('\n').map(line => line.trim()).join('\n')`. -/
def trimLines (s : List Char) : List Char :=
  List.intercalate ['\n'] ((s.splitOn '\n').map jsTrim)

/-- Index of the last `'\n'` in a list, if any. -/
def lastNlIdx : List Char → Option Nat
  | [] => none
  | c :: rest =>
    match lastNlIdx rest with
    | some k => some (k + 1)
    | none => if c = '\n' then some 0 else none

/-- How many characters `\s*$` consumes after a line-start `•` under the
`gm` flags: with `ws` the maximal whitespace run following, the greedy
`\s*` backtracks until `$` holds, i.e. consume all of `ws` when the string
ends there, else consume up to the last `'\n'` inside `ws` (so that the
position sits before a newline); no match otherwise. -/
def bulletConsume (rest : List Char) : Option Nat :=
  let ws := rest.takeWhile jsWhitespace
  if (rest.drop ws.length).isEmpty then some ws.length
  else lastNlIdx ws

/-- Scan for `replace(/^•\s*$/gm, '')`.  `atStart` is true at position 0 and
right after a `'\n'`.  After a match the next character is `'\n'` or the end
of the string, so the flag passed there is never consulted. -/
def rblGo : Nat → Bool → List Char → List Char
  | 0, _, s => s
  | _ + 1, _, [] => []
  | fuel + 1, atStart, c :: rest =>
    if atStart && c = '•' then
      match bulletConsume rest with
      | some k => rblGo fuel false (rest.drop k)
      | none => c :: rblGo fuel false rest
    else c :: rblGo fuel (c = '\n') rest

/-- `replace(/^•\s*$/gm, '')`. -/
def removeBulletLines (s : List Char) : List Char := rblGo s.length true s

/-- Emit a completed newline run: three or more collapse to exactly two. -/
def emitNlRun (run : List Char) : List Char :=
  if run.length ≥ 3 then ['\n', '\n'] else run

/-- Scan for `replace(/\n{3,}/g, '\n\n')`. -/
def cnGo : List Char → List Char → List Char
  | run, [] => emitNlRun run
  | run, c :: rest =>
    if c = '\n' then cnGo (run ++ [c]) rest
    else emitNlRun run ++ c :: cnGo [] rest

/-- `replace(/\n{3,}/g, '\n\n')`. -/
def collapseNewlineRuns (s : List Char) : List Char := cnGo [] s

/-- `applyCleanup` from `src/formatter.js`: collapse space/tab runs, trim
each line, remove bullet-only lines, collapse newline runs, trim. -/
def applyCleanup (text : List Char) : List Char :=
  jsTrim (collapseNewlineRuns (removeBulletLines (trimLines (collapseSpaceRuns text))))

/-- `format` from `src/formatter.js`, for string input (the non-string guard
is modelled separately in `formatJS`). -/
def format (rawText : List Char) : List Char :=
  if rawText = [] then []
  else
    applyCleanup (applyParagraphHeuristics (applyLengthBreaks
      (applySentenceCasing (applyCommands rawText))))

/-- A JavaScript value passed to `format`: a string or a non-string. -/
inductive JsValue where
  | str : List Char → JsValue
  | nullV : JsValue
  | undef : JsValue
  | num : Int → JsValue
  | boolV : Bool → JsValue

/-- `format` including the `if (!rawText || typeof rawText !== 'string')
return ''` guard: every non-string value and the empty string map to the
empty string. -/
def formatJS : JsValue → List Char
  | .str s => format s
  | _ => []

/-! ## Character-level lemmas -/

theorem charToNat_ofNat {n : Nat} (h : n < 55296) : (Char.ofNat n).toNat = n := by
  have hv : n.isValidChar := Or.inl h
  simp [Char.ofNat, hv, Char.ofNatAux, Char.toNat, UInt32.toNat, BitVec.toNat_ofNatLt]

theorem toLower_eq (c : Char) :
    c.toLower = if c.toNat ≥ 65 ∧ c.toNat ≤ 90 then Char.ofNat (c.toNat + 32) else c := rfl

theorem toUpper_eq (c : Char) :
    c.toUpper = if c.toNat ≥ 97 ∧ c.toNat ≤ 122 then Char.ofNat (c.toNat - 32) else c := rfl

theorem toLower_toUpper (c : Char) : c.toUpper.toLower = c.toLower := by
  by_cases h : c.toNat ≥ 97 ∧ c.toNat ≤ 122
  · have h1 : c.toUpper = Char.ofNat (c.toNat - 32) := by rw [toUpper_eq, if_pos h]
    have h2 : c.toUpper.toNat = c.toNat - 32 := by rw [h1]; exact charToNat_ofNat (by omega)
    rw [toLower_eq c.toUpper, if_pos (by omega), h2, toLower_eq c, if_neg (by omega)]
    have h3 : c.toNat - 32 + 32 = c.toNat := by omega
    rw [h3, Char.ofNat_toNat]
  · have h1 : c.toUpper = c := by rw [toUpper_eq, if_neg h]
    rw [h1]

theorem toLower_toLower (c : Char) : c.toLower.toLower = c.toLower := by
  by_cases h : c.toNat ≥ 65 ∧ c.toNat ≤ 90
  · have h1 : c.toLower = Char.ofNat (c.toNat + 32) := by rw [toLower_eq, if_pos h]
    have h2 : c.toLower.toNat = c.toNat + 32 := by rw [h1]; exact charToNat_ofNat (by omega)
    rw [toLower_eq c.toLower, if_neg (by omega)]
  · have h1 : c.toLower = c := by rw [toLower_eq, if_neg h]
    rw [h1, h1]

theorem charLe_iff_toNat (a b : Char) : a ≤ b ↔ a.toNat ≤ b.toNat := by
  rw [Char.le_def, UInt32.le_def]
  exact BitVec.le_def

theorem jsWhitespace_cases {c : Char} (h : jsWhitespace c = true) :
    c = ' ' ∨ c = '\t' ∨ c = '\n' ∨ c = '\r' ∨ c = '\x0b' ∨ c = '\x0c' ∨
    c = ' ' ∨ c = '﻿' := by
  simp only [jsWhitespace, Bool.or_eq_true, decide_eq_true_eq] at h
  tauto

theorem toLower_of_ws {c : Char} (h : jsWhitespace c = true) : c.toLower = c := by
  rcases jsWhitespace_cases h with h | h | h | h | h | h | h | h <;> subst h <;> decide

theorem lowerAlnum_toNat {c : Char} (h : lowerAlnum c = true) :
    (97 ≤ c.toNat ∧ c.toNat ≤ 122) ∨ (48 ≤ c.toNat ∧ c.toNat ≤ 57) := by
  simp only [lowerAlnum, Bool.or_eq_true, Bool.and_eq_true, decide_eq_true_eq] at h
  rcases h with ⟨h1, h2⟩ | ⟨h1, h2⟩
  · left
    rw [charLe_iff_toNat] at h1 h2
    exact ⟨h1, h2⟩
  · right
    rw [charLe_iff_toNat] at h1 h2
    exact ⟨h1, h2⟩

theorem toLower_of_lowerAlnum {c : Char} (h : lowerAlnum c = true) : c.toLower = c := by
  rw [toLower_eq, if_neg]
  rcases lowerAlnum_toNat h with ⟨h1, h2⟩ | ⟨h1, h2⟩ <;> omega

theorem lowerAlnum_not_ws {c : Char} (h : lowerAlnum c = true) : jsWhitespace c = false := by
  rcases lowerAlnum_toNat h with hr | hr <;>
  · by_contra hw
    simp only [Bool.not_eq_false] at hw
    rcases jsWhitespace_cases hw with h | h | h | h | h | h | h | h <;> subst h <;>
      revert hr <;> decide

theorem ws_not_lowerAlnum {c : Char} (h : jsWhitespace c = true) : lowerAlnum c = false := by
  by_contra ha
  simp only [Bool.not_eq_false] at ha
  rw [lowerAlnum_not_ws ha] at h
  exact Bool.false_ne_true h

theorem keepChar_iff {c : Char} :
    keepChar c = true ↔ lowerAlnum c = true ∨ jsWhitespace c = true := by
  simp [keepChar]

theorem spTab_ws {c : Char} (h : spTab c = true) : jsWhitespace c = true := by
  simp only [spTab, Bool.or_eq_true, decide_eq_true_eq] at h
  rcases h with h | h <;> subst h <;> decide

/-! ## Interface lemmas for `runsBy` -/

theorem runsBy_nil (p : Char → Bool) : runsBy p [] = [] := rfl

theorem runsBy_cons_pos (p : Char → Bool) (t : List Char) :
    ∀ c, p c = true → runsBy p (c :: t) = (c :: t.takeWhile p) :: runsBy p (t.dropWhile p) := by
  induction t with
  | nil => intro c hc; simp [runsBy, hc]
  | cons d t2 ih =>
    intro c hc
    by_cases hd : p d = true
    · rw [List.takeWhile_cons, if_pos hd, List.dropWhile_cons, if_pos hd]
      show runsBy p (c :: d :: t2) = _
      rw [runsBy, if_pos hc, if_pos hd, ih d hd]
      rfl
    · have hd2 : p d = false := by simpa using hd
      rw [List.takeWhile_cons, if_neg (by simp [hd2]), List.dropWhile_cons,
        if_neg (by simp [hd2])]
      show runsBy p (c :: d :: t2) = _
      rw [runsBy, if_pos hc, if_neg (by simp [hd2])]

theorem runsBy_cons_neg (p : Char → Bool) (c : Char) (t : List Char) (hc : p c = false) :
    runsBy p (c :: t) = runsBy p t := by
  cases t with
  | nil => simp [runsBy, hc]
  | cons d t2 =>
    show runsBy p (c :: d :: t2) = _
    rw [runsBy, if_neg (by simp [hc])]

theorem takeWhile_eq_self_of_all {p : Char → Bool} :
    ∀ {l : List Char}, (∀ a ∈ l, p a = true) → l.takeWhile p = l
  | [], _ => rfl
  | c :: t, h => by
    rw [List.takeWhile_cons, if_pos (h c (List.mem_cons_self c t))]
    rw [takeWhile_eq_self_of_all fun a ha => h a (List.mem_cons_of_mem c ha)]

theorem dropWhile_eq_nil_of_all {p : Char → Bool} :
    ∀ {l : List Char}, (∀ a ∈ l, p a = true) → l.dropWhile p = []
  | [], _ => rfl
  | c :: t, h => by
    rw [List.dropWhile_cons, if_pos (h c (List.mem_cons_self c t))]
    exact dropWhile_eq_nil_of_all fun a ha => h a (List.mem_cons_of_mem c ha)

theorem all_of_takeWhile_length {p : Char → Bool} {l : List Char}
    (h : (l.takeWhile p).length = l.length) : ∀ a ∈ l, p a = true := by
  have he : l.takeWhile p = l := (List.takeWhile_prefix p).eq_of_length h
  intro a ha
  rw [← he] at ha
  exact List.mem_takeWhile_imp ha

theorem takeWhile_append_stop {p : Char → Bool} {A Z : List Char}
    (h : ¬ ∀ a ∈ A, p a = true) : (A ++ Z).takeWhile p = A.takeWhile p := by
  rw [List.takeWhile_append, if_neg]
  intro hlen
  exact h (all_of_takeWhile_length hlen)

theorem all_of_dropWhile_eq_nil {p : Char → Bool} :
    ∀ {A : List Char}, A.dropWhile p = [] → ∀ a ∈ A, p a = true
  | [], _ => by simp
  | c :: t, h => by
    rw [List.dropWhile_cons] at h
    by_cases hc : p c = true
    · rw [if_pos hc] at h
      intro a ha
      rcases List.mem_cons.mp ha with rfl | ha2
      · exact hc
      · exact all_of_dropWhile_eq_nil h a ha2
    · rw [if_neg hc] at h
      exact absurd h (List.cons_ne_nil c t)

theorem dropWhile_append_stop {p : Char → Bool} {A Z : List Char}
    (h : ¬ ∀ a ∈ A, p a = true) : (A ++ Z).dropWhile p = A.dropWhile p ++ Z := by
  rw [List.dropWhile_append, if_neg]
  intro hemp
  rw [List.isEmpty_iff] at hemp
  exact h (all_of_dropWhile_eq_nil hemp)

theorem runsBy_all_neg {p : Char → Bool} :
    ∀ {W : List Char}, (∀ a ∈ W, p a = false) → runsBy p W = []
  | [], _ => rfl
  | c :: t, h => by
    rw [runsBy_cons_neg p c t (h c (List.mem_cons_self c t))]
    exact runsBy_all_neg fun a ha => h a (List.mem_cons_of_mem c ha)

theorem runsBy_append_left_neg {p : Char → Bool} :
    ∀ {W : List Char}, (∀ a ∈ W, p a = false) → ∀ B, runsBy p (W ++ B) = runsBy p B
  | [], _, _ => rfl
  | c :: t, h, B => by
    rw [List.cons_append, runsBy_cons_neg p c _ (h c (List.mem_cons_self c t))]
    exact runsBy_append_left_neg (fun a ha => h a (List.mem_cons_of_mem c ha)) B

theorem runsBy_append_sep (p : Char → Bool) {sep : Char} (hsep : p sep = false) :
    ∀ (A B : List Char), runsBy p (A ++ sep :: B) = runsBy p A ++ runsBy p B := by
  have main : ∀ (n : Nat) (A : List Char), A.length ≤ n → ∀ B,
      runsBy p (A ++ sep :: B) = runsBy p A ++ runsBy p B := by
    intro n
    induction n with
    | zero =>
      intro A hA B
      rw [List.length_eq_zero.mp (Nat.le_zero.mp hA)]
      simp [runsBy_cons_neg p sep B hsep, runsBy_nil]
    | succ n ih =>
      intro A hA B
      match A with
      | [] => simp [runsBy_cons_neg p sep B hsep, runsBy_nil]
      | c :: A2 =>
        by_cases hc : p c = true
        · rw [List.cons_append, runsBy_cons_pos p _ c hc, runsBy_cons_pos p A2 c hc]
          by_cases hall : ∀ a ∈ A2, p a = true
          · rw [List.takeWhile_append_of_pos hall, List.dropWhile_append_of_pos hall,
              List.takeWhile_cons, if_neg (by simp [hsep]),
              List.dropWhile_cons, if_neg (by simp [hsep]),
              runsBy_cons_neg p sep B hsep,
              takeWhile_eq_self_of_all hall, dropWhile_eq_nil_of_all hall]
            simp [runsBy]
          · rw [takeWhile_append_stop hall, dropWhile_append_stop hall]
            have hlen : (A2.dropWhile p).length ≤ n := by
              have h1 : (A2.dropWhile p).length ≤ A2.length := (List.dropWhile_suffix p).length_le
              have h2 : A2.length + 1 ≤ n + 1 := by simpa using hA
              omega
            rw [ih (A2.dropWhile p) hlen B]
            simp
        · have hc2 : p c = false := by simpa using hc
          rw [List.cons_append, runsBy_cons_neg p c _ hc2, runsBy_cons_neg p c A2 hc2]
          have hA2 : A2.length ≤ n := by simp at hA; omega
          exact ih A2 hA2 B
  intro A B
  exact main A.length A (Nat.le_refl _) B

theorem runsBy_append_right_neg {p : Char → Bool} {W : List Char}
    (h : ∀ a ∈ W, p a = false) (B : List Char) : runsBy p (B ++ W) = runsBy p B := by
  cases W with
  | nil => simp
  | cons w W2 =>
    rw [runsBy_append_sep p (h w (List.mem_cons_self w W2)) B W2,
      runsBy_all_neg fun a ha => h a (List.mem_cons_of_mem w ha)]
    simp

theorem runsBy_mem_spec {p : Char → Bool} :
    ∀ {t : List Char} {r : List Char}, r ∈ runsBy p t →
      r ≠ [] ∧ ∀ c ∈ r, p c = true := by
  have main : ∀ (n : Nat) (t : List Char), t.length ≤ n → ∀ r ∈ runsBy p t,
      r ≠ [] ∧ ∀ c ∈ r, p c = true := by
    intro n
    induction n with
    | zero =>
      intro t ht r hr
      rw [List.length_eq_zero.mp (Nat.le_zero.mp ht)] at hr
      simp [runsBy] at hr
    | succ n ih =>
      intro t ht r hr
      match t with
      | [] => simp [runsBy] at hr
      | c :: t2 =>
        by_cases hc : p c = true
        · rw [runsBy_cons_pos p t2 c hc] at hr
          rcases List.mem_cons.mp hr with rfl | hr2
          · refine ⟨by simp, ?_⟩
            intro x hx
            rcases List.mem_cons.mp hx with rfl | hx2
            · exact hc
            · exact List.mem_takeWhile_imp hx2
          · have hlen : (t2.dropWhile p).length ≤ n := by
              have h1 : (t2.dropWhile p).length ≤ t2.length := (List.dropWhile_suffix p).length_le
              have h2 : t2.length + 1 ≤ n + 1 := by simpa using ht
              omega
            exact ih (t2.dropWhile p) hlen r hr2
        · rw [runsBy_cons_neg p c t2 (by simpa using hc)] at hr
          have ht2 : t2.length ≤ n := by simp at ht; omega
          exact ih t2 ht2 r hr
  intro t r hr
  exact main t.length t (Nat.le_refl _) r hr

/-! ## Normal form of `getWords`: trim/collapse produce the word runs
joined by single spaces -/

/-- The lower-cased, stripped character list that `getWords` normalizes. -/
def prep (s : List Char) : List Char := (s.map Char.toLower).filter keepChar

theorem getWords_eq (s : List Char) :
    getWords s = if s = [] then [] else (jsTrim (collapseWS (prep s))).splitOn ' ' := rfl

theorem prep_all_keep (s : List Char) : ∀ a ∈ prep s, keepChar a = true :=
  fun _ ha => List.of_mem_filter ha

/-- Right trim: drop trailing whitespace. -/
def rdw (cs : List Char) : List Char := (cs.reverse.dropWhile jsWhitespace).reverse

theorem jsTrim_eq_rdw (cs : List Char) : jsTrim cs = rdw (cs.dropWhile jsWhitespace) := rfl

theorem collapseWS_cons_nonws {c : Char} (hc : jsWhitespace c = false) (t : List Char) :
    collapseWS (c :: t) = c :: collapseWS t := by
  cases t with
  | nil => simp [collapseWS, hc]
  | cons d t2 =>
    show collapseWS (c :: d :: t2) = _
    rw [collapseWS, if_neg (by simp [hc])]

theorem collapseWS_cons_ws {c : Char} (hc : jsWhitespace c = true) :
    ∀ t : List Char, collapseWS (c :: t) = ' ' :: collapseWS (t.dropWhile jsWhitespace)
  | [] => by simp [collapseWS, hc]
  | d :: t2 => by
    by_cases hd : jsWhitespace d = true
    · show collapseWS (c :: d :: t2) = _
      rw [collapseWS, if_pos hc, if_pos hd, List.dropWhile_cons, if_pos hd]
      exact collapseWS_cons_ws hd t2
    · have hd2 : jsWhitespace d = false := by simpa using hd
      show collapseWS (c :: d :: t2) = _
      rw [collapseWS, if_pos hc, if_neg (by simp [hd2]), List.dropWhile_cons,
        if_neg (by simp [hd2]), collapseWS_cons_nonws hd2]

theorem collapseWS_append_nonws :
    ∀ {A : List Char}, (∀ a ∈ A, jsWhitespace a = false) →
      ∀ B, collapseWS (A ++ B) = A ++ collapseWS B
  | [], _, _ => rfl
  | c :: t, h, B => by
    rw [List.cons_append, collapseWS_cons_nonws (h c (List.mem_cons_self c t)),
      collapseWS_append_nonws (fun a ha => h a (List.mem_cons_of_mem c ha)) B]
    rfl

theorem dropWhile_eq_self_of_all_neg {p : Char → Bool} {l : List Char}
    (h : ∀ a ∈ l, p a = false) : l.dropWhile p = l := by
  cases l with
  | nil => rfl
  | cons c t => rw [List.dropWhile_cons, if_neg (by simp [h c (List.mem_cons_self c t)])]

theorem dropWhile_head_neg {p : Char → Bool} :
    ∀ {l : List Char} {a : Char} {l2 : List Char}, l.dropWhile p = a :: l2 → p a = false
  | [], _, _, h => by simp at h
  | c :: t, a, l2, h => by
    rw [List.dropWhile_cons] at h
    by_cases hc : p c = true
    · rw [if_pos hc] at h
      exact dropWhile_head_neg h
    · rw [if_neg hc] at h
      cases h
      simpa using hc

theorem rdw_all_nonws {A : List Char} (h : ∀ a ∈ A, jsWhitespace a = false) : rdw A = A := by
  unfold rdw
  rw [dropWhile_eq_self_of_all_neg (fun a ha => h a (List.mem_reverse.mp ha)), List.reverse_reverse]

theorem rdw_append_ws {W : List Char} (h : ∀ a ∈ W, jsWhitespace a = true) (A : List Char) :
    rdw (A ++ W) = rdw A := by
  unfold rdw
  rw [List.reverse_append, List.dropWhile_append_of_pos (fun a ha => h a (List.mem_reverse.mp ha))]

theorem rdw_append_keep {B : List Char} (h : ¬ ∀ a ∈ B, jsWhitespace a = true)
    (A : List Char) : rdw (A ++ B) = A ++ rdw B := by
  unfold rdw
  rw [List.reverse_append, dropWhile_append_stop (fun hall => h fun a ha =>
    hall a (List.mem_reverse.mpr ha)), List.reverse_append, List.reverse_reverse]

theorem jsTrim_cons_ws {c : Char} (hc : jsWhitespace c = true) (t : List Char) :
    jsTrim (c :: t) = jsTrim t := by
  unfold jsTrim
  rw [List.dropWhile_cons, if_pos hc]

theorem jsTrim_of_head_nonws {c : Char} (hc : jsWhitespace c = false) (t : List Char) :
    jsTrim (c :: t) = rdw (c :: t) := by
  rw [jsTrim_eq_rdw, List.dropWhile_cons, if_neg (by simp [hc])]

theorem intercalate_single (sep a : List Char) : List.intercalate sep [a] = a := by
  simp [List.intercalate]

theorem intercalate_cons₂ (sep a : List Char) {rs : List (List Char)} (h : rs ≠ []) :
    List.intercalate sep (a :: rs) = a ++ sep ++ List.intercalate sep rs := by
  cases rs with
  | nil => exact absurd rfl h
  | cons b t => simp [List.intercalate, List.intersperse]

theorem keep_not_ws_alnum {c : Char} (hk : keepChar c = true)
    (hw : jsWhitespace c = false) : lowerAlnum c = true := by
  rcases keepChar_iff.mp hk with h | h
  · exact h
  · rw [h] at hw
    exact absurd hw (by simp)

/-- On an all-keep alphabet, collapsing whitespace and trimming yields the
alphanumeric runs joined by single spaces. -/
theorem trimCollapse_eq_intercalate :
    ∀ {t : List Char}, (∀ a ∈ t, keepChar a = true) →
      jsTrim (collapseWS t) = List.intercalate [' '] (alnumRuns t) := by
  have main : ∀ (n : Nat) (t : List Char), t.length ≤ n →
      (∀ a ∈ t, keepChar a = true) →
      jsTrim (collapseWS t) = List.intercalate [' '] (alnumRuns t) := by
    intro n
    induction n with
    | zero =>
      intro t ht _
      rw [List.length_eq_zero.mp (Nat.le_zero.mp ht)]
      simp [collapseWS, jsTrim, alnumRuns, runsBy_nil, List.intercalate]
    | succ n ih =>
      intro t ht hkeep
      match t with
      | [] => simp [collapseWS, jsTrim, alnumRuns, runsBy_nil, List.intercalate]
      | c :: t2 =>
        by_cases hcw : jsWhitespace c = true
        · rw [collapseWS_cons_ws hcw, jsTrim_cons_ws (by decide)]
          have hsub : ∀ a ∈ t2.dropWhile jsWhitespace, a ∈ t2 :=
            fun a ha => (List.dropWhile_suffix jsWhitespace).subset ha
          have hlen : (t2.dropWhile jsWhitespace).length ≤ n := by
            have h1 : (t2.dropWhile jsWhitespace).length ≤ t2.length :=
              (List.dropWhile_suffix jsWhitespace).length_le
            have h2 : t2.length + 1 ≤ n + 1 := by simpa using ht
            omega
          rw [ih _ hlen fun a ha => hkeep a (List.mem_cons_of_mem c (hsub a ha))]
          have hrw : alnumRuns (c :: t2) = alnumRuns (t2.dropWhile jsWhitespace) := by
            show runsBy lowerAlnum _ = _
            rw [runsBy_cons_neg lowerAlnum c t2 (ws_not_lowerAlnum hcw)]
            conv_lhs => rw [← List.takeWhile_append_dropWhile (p := jsWhitespace) (l := t2)]
            exact runsBy_append_left_neg
              (fun a ha => ws_not_lowerAlnum (List.mem_takeWhile_imp ha)) _
          rw [hrw]
        · have hcw2 : jsWhitespace c = false := by simpa using hcw
          have hca : lowerAlnum c = true :=
            keep_not_ws_alnum (hkeep c (List.mem_cons_self c t2)) hcw2
          have htw_nonws : ∀ a ∈ (c :: t2.takeWhile lowerAlnum), jsWhitespace a = false := by
            intro a ha
            rcases List.mem_cons.mp ha with rfl | ha2
            · exact hcw2
            · exact lowerAlnum_not_ws (List.mem_takeWhile_imp ha2)
          have hsplit : c :: t2 = (c :: t2.takeWhile lowerAlnum) ++ t2.dropWhile lowerAlnum := by
            simp [List.takeWhile_append_dropWhile]
          have hruns : alnumRuns (c :: t2) =
              (c :: t2.takeWhile lowerAlnum) :: alnumRuns (t2.dropWhile lowerAlnum) :=
            runsBy_cons_pos lowerAlnum t2 c hca
          rw [hruns]
          conv_lhs => rw [hsplit, collapseWS_append_nonws htw_nonws]
          rcases hdwe : t2.dropWhile lowerAlnum with _ | ⟨w, dw2⟩
          · rw [show collapseWS [] = [] from rfl, List.append_nil,
              jsTrim_of_head_nonws hcw2, rdw_all_nonws htw_nonws,
              show alnumRuns [] = [] from rfl, intercalate_single]
          · have hwa : lowerAlnum w = false := dropWhile_head_neg hdwe
            have hwdw : w ∈ t2.dropWhile lowerAlnum := by
              rw [hdwe]; exact List.mem_cons_self w dw2
            have hwmem : w ∈ t2 := (List.dropWhile_suffix lowerAlnum).subset hwdw
            have hww : jsWhitespace w = true := by
              rcases keepChar_iff.mp (hkeep w (List.mem_cons_of_mem c hwmem)) with h | h
              · rw [h] at hwa; exact absurd hwa (by simp)
              · exact h
            have hDsub : ∀ a ∈ dw2.dropWhile jsWhitespace, a ∈ t2 := by
              intro a ha
              have h1 : a ∈ dw2 := (List.dropWhile_suffix jsWhitespace).subset ha
              have h2 : a ∈ t2.dropWhile lowerAlnum := by
                rw [hdwe]; exact List.mem_cons_of_mem w h1
              exact (List.dropWhile_suffix lowerAlnum).subset h2
            have hrdw : alnumRuns (w :: dw2) = alnumRuns (dw2.dropWhile jsWhitespace) := by
              show runsBy lowerAlnum _ = _
              rw [runsBy_cons_neg lowerAlnum w dw2 hwa]
              conv_lhs => rw [← List.takeWhile_append_dropWhile (p := jsWhitespace) (l := dw2)]
              exact runsBy_append_left_neg
                (fun a ha => ws_not_lowerAlnum (List.mem_takeWhile_imp ha)) _
            rw [collapseWS_cons_ws hww, hrdw]
            rcases hDe : dw2.dropWhile jsWhitespace with _ | ⟨d, D2⟩
            · rw [show collapseWS [] = [] from rfl, List.cons_append,
                jsTrim_of_head_nonws hcw2, ← List.cons_append,
                rdw_append_ws (by intro a ha; simp at ha; rw [ha]; rfl) _,
                rdw_all_nonws htw_nonws, show alnumRuns [] = [] from rfl, intercalate_single]
            · have hdnw : jsWhitespace d = false := dropWhile_head_neg hDe
              have hddw : d ∈ dw2.dropWhile jsWhitespace := by
                rw [hDe]; exact List.mem_cons_self d D2
              have hdmem : d ∈ t2 := hDsub d hddw
              have hda : lowerAlnum d = true :=
                keep_not_ws_alnum (hkeep d (List.mem_cons_of_mem c hdmem)) hdnw
              have hclD : collapseWS (d :: D2) = d :: collapseWS D2 :=
                collapseWS_cons_nonws hdnw D2
              have hDnotall2 : ¬ ∀ a ∈ collapseWS (d :: D2), jsWhitespace a = true := by
                intro hall
                have hd2 : jsWhitespace d = true := by
                  apply hall
                  rw [hclD]
                  exact List.mem_cons_self d _
                rw [hdnw] at hd2
                exact absurd hd2 (by simp)
              have hDnotall : ¬ ∀ a ∈ (' ' :: collapseWS (d :: D2)), jsWhitespace a = true := by
                intro hall
                exact hDnotall2 fun a ha => hall a (List.mem_cons_of_mem ' ' ha)
              rw [List.cons_append, jsTrim_of_head_nonws hcw2, ← List.cons_append,
                rdw_append_keep hDnotall _,
                show (' ' :: collapseWS (d :: D2)) = [' '] ++ collapseWS (d :: D2) from rfl,
                rdw_append_keep hDnotall2 [' ']]
              have hjtD : rdw (collapseWS (d :: D2)) = jsTrim (collapseWS (d :: D2)) := by
                rw [hclD, jsTrim_of_head_nonws hdnw]
              have hlenD : (d :: D2).length ≤ n := by
                have h1 : (dw2.dropWhile jsWhitespace).length ≤ dw2.length :=
                  (List.dropWhile_suffix jsWhitespace).length_le
                have h2 : (t2.dropWhile lowerAlnum).length ≤ t2.length :=
                  (List.dropWhile_suffix lowerAlnum).length_le
                have h3 : (t2.dropWhile lowerAlnum).length = dw2.length + 1 := by
                  rw [hdwe]; rfl
                have h4 : (dw2.dropWhile jsWhitespace).length = (d :: D2).length := by
                  rw [hDe]
                have h5 : t2.length + 1 ≤ n + 1 := by simpa using ht
                simp only [List.length_cons] at h4 ⊢
                omega
              have hkeepD : ∀ a ∈ (d :: D2), keepChar a = true := by
                intro a ha
                apply hkeep
                apply List.mem_cons_of_mem c
                apply hDsub
                rw [hDe]
                exact ha
              rw [hjtD, ih (d :: D2) hlenD hkeepD]
              have hrunsD_ne : alnumRuns (d :: D2) ≠ [] := by
                show runsBy lowerAlnum (d :: D2) ≠ []
                rw [runsBy_cons_pos lowerAlnum D2 d hda]
                simp
              rw [intercalate_cons₂ [' '] (c :: t2.takeWhile lowerAlnum) hrunsD_ne]
              simp
  intro t hkeep
  exact main t.length t (Nat.le_refl _) hkeep

/-- Characterization of `getWords` on non-empty input: the alphanumeric runs
of the normalized text, or `[[]]` when there are none. -/
theorem getWords_char {s : List Char} (hs : s ≠ []) :
    getWords s = if alnumRuns (prep s) = [] then [[]] else alnumRuns (prep s) := by
  rw [getWords_eq, if_neg hs, trimCollapse_eq_intercalate (prep_all_keep s)]
  by_cases h : alnumRuns (prep s) = []
  · rw [h, if_pos rfl]
    simp [List.intercalate]
  · rw [if_neg h]
    apply List.splitOn_intercalate
    · intro l hl hsp
      have hspec := runsBy_mem_spec (p := lowerAlnum) hl
      have : lowerAlnum ' ' = true := hspec.2 ' ' hsp
      exact absurd this (by decide)
    · exact h

/-! ## Claim C1: the strict validator -/

theorem zip_self_all_beq (l : List (List Char)) :
    ((l.zip l).all fun p => p.1 == p.2) = true := by
  induction l with
  | nil => rfl
  | cons a t ih =>
    simp at ih ⊢
    exact ih

theorem validateContent_of_length_ne {raw text : List Char}
    (h : (getWords raw).length ≠ (getWords text).length) :
    validateContent raw text = false := by
  simp [validateContent, h]

theorem alnumRuns_append_sep {sep : Char} (h : lowerAlnum sep = false)
    (A B : List Char) : alnumRuns (A ++ sep :: B) = alnumRuns A ++ alnumRuns B :=
  runsBy_append_sep lowerAlnum h A B

theorem getWords_append_extra (raw : List Char) :
    (getWords (raw ++ " extra word".toList)).length = (alnumRuns (prep raw)).length + 2 := by
  have hne : raw ++ " extra word".toList ≠ [] := by simp
  rw [getWords_char hne]
  have hpre : prep " extra word".toList = " extra word".toList := by decide
  have hprep : prep (raw ++ " extra word".toList) = prep raw ++ " extra word".toList := by
    unfold prep
    rw [List.map_append, List.filter_append]
    show _ ++ prep " extra word".toList = _
    rw [hpre]
  rw [hprep, show (" extra word".toList : List Char) = ' ' :: "extra word".toList from rfl,
    alnumRuns_append_sep (by decide) _ _,
    show alnumRuns ("extra word".toList) = ["extra".toList, "word".toList] by decide]
  rw [if_neg (by simp)]
  simp

/-- C1: `validateContent` accepts every text against itself; rejects any text
whose word sequence is the raw word sequence with one word deleted (when raw
has at least one word); rejects `raw ++ " extra word"` for every raw; accepts
`("the cat sat", "The cat sat.")` and rejects `("the cat sat", "The dog
sat.")`. -/
theorem c1_validateContent_spec :
    (∀ raw : List Char, validateContent raw raw = true) ∧
    (∀ (raw text : List Char) (i : Nat), i < (getWords raw).length →
      getWords text = (getWords raw).eraseIdx i → validateContent raw text = false) ∧
    (∀ raw : List Char, validateContent raw (raw ++ " extra word".toList) = false) ∧
    (validateContent "the cat sat".toList "The cat sat.".toList = true ∧
      validateContent "the cat sat".toList "The dog sat.".toList = false) := by
  refine ⟨?_, ?_, ?_, by decide, by decide⟩
  · intro raw
    simp [validateContent, zip_self_all_beq]
  · intro raw text i hi heq
    apply validateContent_of_length_ne
    rw [heq, List.length_eraseIdx_of_lt hi]
    omega
  · intro raw
    apply validateContent_of_length_ne
    rw [getWords_append_extra raw]
    by_cases hr : raw = []
    · subst hr
      simp [getWords, prep, alnumRuns, runsBy_nil]
    · rw [getWords_char hr]
      by_cases hempty : alnumRuns (prep raw) = []
      · rw [if_pos hempty, hempty]
        simp
      · rw [if_neg hempty]
        omega

/-- Witness for C1: concrete instantiation of the deletion clause. -/
theorem c1_validateContent_spec_witness :
    validateContent "a b".toList "a".toList = false :=
  c1_validateContent_spec.2.1 "a b".toList "a".toList 1 (by decide) (by decide)

/-! ## Claim C4: fallback on any failure of the language-model call -/

/-- Did `callServer` reject? -/
def callFailed (outcome : CallOutcome) : Bool :=
  match callServer outcome with
  | .error _ => true
  | .ok _ => false

/-- C4: transport errors, timeouts, non-200 statuses and malformed bodies all
make `callServer` reject, and on any rejection both `improve` variants return
the fallback candidate exactly (and, being total functions, never throw). -/
theorem c4_improve_fallback :
    (callFailed .transportErr = true ∧ callFailed .timeoutErr = true ∧
      (∀ (status : Nat) (body : RespBody), status ≠ 200 →
        callFailed (.response status body) = true) ∧
      callFailed (.response 200 .invalid) = true) ∧
    (∀ (raw soft : List Char) (outcome : CallOutcome), callFailed outcome = true →
      improve raw soft outcome = soft ∧ improveSJ raw soft outcome = soft) := by
  constructor
  · refine ⟨rfl, rfl, ?_, rfl⟩
    intro status body hstatus
    simp [callFailed, callServer, hstatus]
  · intro raw soft outcome hfail
    unfold callFailed at hfail
    unfold improve improveSJ
    cases hcall : callServer outcome with
    | error e => exact ⟨rfl, rfl⟩
    | ok r => rw [hcall] at hfail; simp at hfail

/-- Witness for C4: a transport error makes both variants return the
fallback. -/
theorem c4_improve_fallback_witness :
    improve "a".toList "b".toList .transportErr = "b".toList ∧
    improveSJ "a".toList "b".toList .transportErr = "b".toList :=
  c4_improve_fallback.2 "a".toList "b".toList .transportErr (by decide)

/-! ## Claims C8 and C10: the loose word-count policy -/

/-- Equal word counts always pass the loose check (shared helper). -/
theorem safetyCheck_of_count_eq {raw refined : List Char}
    (h : getWordCount raw = getWordCount refined) : safetyCheck raw refined = true := by
  unfold safetyCheck
  rw [if_neg (by omega)]
  rw [h]
  simp only [sub_self, abs_zero, zero_div]
  norm_num

/-- C8 counterexample: the claim calls whitespace-only generated text
"word count zero" and requires rejection, but `getWordCount " " = 1` and
`safetyCheck "a" " "` accepts. -/
theorem c8_counterexample :
    getWordCount "a".toList ≠ 0 ∧
    (∀ c ∈ (" ".toList : List Char), jsWhitespace c = true) ∧
    getWordCount " ".toList = 1 ∧
    safetyCheck "a".toList " ".toList = true := by
  refine ⟨by decide, by decide, by decide, safetyCheck_of_count_eq (by decide)⟩

/-- C8 (amended): zero-count (empty) generated text is rejected when the raw
count is non-zero, and rejection happens exactly when the exact rational
ratio `|raw - generated| / max(raw, 1)` exceeds `2/5`. -/
theorem c8_safetyCheck_spec :
    (∀ raw gen : List Char, getWordCount raw > 0 → getWordCount gen = 0 →
      safetyCheck raw gen = false) ∧
    (∀ raw gen : List Char, safetyCheck raw gen = false ↔
      |(getWordCount raw : ℚ) - (getWordCount gen : ℚ)| /
        max (getWordCount raw : ℚ) 1 > (2 : ℚ) / 5) := by
  constructor
  · intro raw gen hraw hgen
    simp [safetyCheck, hgen, hraw]
  · intro raw gen
    unfold safetyCheck
    by_cases hzero : getWordCount gen = 0 ∧ getWordCount raw > 0
    · rw [if_pos hzero]
      obtain ⟨hg, hr⟩ := hzero
      have hr1 : (1 : ℚ) ≤ (getWordCount raw : ℚ) := by exact_mod_cast hr
      have hmax : max (getWordCount raw : ℚ) 1 = (getWordCount raw : ℚ) :=
        max_eq_left hr1
      rw [hg, hmax]
      have hpos : (0 : ℚ) < (getWordCount raw : ℚ) := by linarith
      constructor
      · intro _
        rw [show ((0 : Nat) : ℚ) = (0 : ℚ) from rfl, sub_zero, abs_of_pos hpos,
          div_self (ne_of_gt hpos)]
        norm_num
      · intro _
        rfl
    · rw [if_neg hzero]
      by_cases hratio : |(getWordCount raw : ℚ) - (getWordCount gen : ℚ)| /
          max (getWordCount raw : ℚ) 1 > (2 : ℚ) / 5
      · rw [if_pos hratio]
        exact ⟨fun _ => hratio, fun _ => rfl⟩
      · rw [if_neg hratio]
        constructor
        · intro h
          exact absurd h (by simp)
        · intro h
          exact absurd h hratio

/-- Witness for C8: an empty generated text against a one-word raw text is
rejected. -/
theorem c8_safetyCheck_spec_witness :
    safetyCheck "a".toList "".toList = false :=
  c8_safetyCheck_spec.1 "a".toList "".toList (by decide) (by decide)

/-- C10: the `structureJudge.js` variant checks only the word-count ratio, so
any two texts with equal word counts are accepted — including word
substitutions such as `("the cat sat", "The dog sat.")`. -/
theorem c10_safetyCheck_count_only :
    (∀ raw refined : List Char, getWordCount raw = getWordCount refined →
      safetyCheck raw refined = true) ∧
    safetyCheck "the cat sat".toList "The dog sat.".toList = true := by
  constructor
  · intro raw refined h
    exact safetyCheck_of_count_eq h
  · exact safetyCheck_of_count_eq (by decide)

/-- Witness for C10: equal counts with reordered words are accepted. -/
theorem c10_safetyCheck_count_only_witness :
    safetyCheck "a b".toList "b a".toList = true :=
  c10_safetyCheck_count_only.1 "a b".toList "b a".toList (by decide)

/-! ## Claim C3: termination of the length-break loop -/

theorem lbScan_some_spec (text : List Char) :
    ∀ (rem : List Char) (i counter : Nat) (ls : Option Nat) (cs acc : Nat)
      (t2 : List Char) (s2 : Nat),
      rem = text.drop i →
      (∀ j, ls = some j → j < text.length) →
      cs ≤ i →
      lbScan text rem i counter ls cs acc = some (t2, s2) →
      t2.length = text.length + 1 ∧ cs + 2 ≤ s2 := by
  intro rem
  induction rem with
  | nil =>
    intro i counter ls cs acc t2 s2 _ _ _ hres
    simp [lbScan] at hres
  | cons c rem2 ih =>
    intro i counter ls cs acc t2 s2 hrem hls hcsi hres
    have hi_lt : i < text.length := by
      by_contra hle
      have : text.drop i = [] := List.drop_eq_nil_iff.mpr (by omega)
      rw [this] at hrem
      exact List.cons_ne_nil c rem2 hrem
    have hrem2 : rem2 = text.drop (i + 1) := by
      have h1 : text.drop (i + 1) = (text.drop i).drop 1 := by
        rw [List.drop_drop]
      rw [h1, ← hrem]
      rfl
    rw [lbScan] at hres
    by_cases hterm : (c = '.' || c = '?' || c = '!' || c = '\n') = true
    · rw [if_pos hterm] at hres
      have := ih (i + 1) 0 none (i + 1) (i + 1) t2 s2 hrem2 (by simp) (Nat.le_refl _) hres
      exact ⟨this.1, by omega⟩
    · rw [if_neg hterm] at hres
      have hls2 : ∀ j, (if c = ' ' then some i else ls) = some j → j < text.length := by
        intro j hj
        by_cases hsp : c = ' '
        · rw [if_pos hsp] at hj
          cases hj
          exact hi_lt
        · rw [if_neg hsp] at hj
          exact hls j hj
      by_cases hcnt : counter + 1 > 140
      · rw [if_pos hcnt] at hres
        cases hlsv : (if c = ' ' then some i else ls) with
        | some j =>
          rw [hlsv] at hres
          have hres2 : (if j > cs then
              some (text.take j ++ '.' :: ' ' :: upperFirst (text.drop (j + 1)), j + 1)
            else lbScan text rem2 (i + 1) 0 (some j) cs acc) = some (t2, s2) := hres
          by_cases hj : j > cs
          · rw [if_pos hj] at hres2
            have hjlt : j < text.length := hls2 j hlsv
            cases hres2
            constructor
            · have htake : (text.take j).length = j := by
                rw [List.length_take]
                omega
              have hdrop : (text.drop (j + 1)).length = text.length - (j + 1) := by
                rw [List.length_drop]
              have hupper : (upperFirst (text.drop (j + 1))).length =
                  (text.drop (j + 1)).length := by
                cases htd : text.drop (j + 1) with
                | nil => rfl
                | cons x xs => rfl
              simp only [List.length_append, List.length_cons, htake, hupper, hdrop]
              omega
            · omega
          · rw [if_neg hj] at hres2
            have := ih (i + 1) 0 (some j) cs acc t2 s2 hrem2
              (fun j2 hj2 => by cases hj2; exact hls2 j hlsv) (by omega) hres2
            exact this
        | none =>
          rw [hlsv] at hres
          have hres2 : lbScan text rem2 (i + 1) 0 none cs acc = some (t2, s2) := hres
          have := ih (i + 1) 0 none cs acc t2 s2 hrem2 (by simp) (by omega) hres2
          exact this
      · rw [if_neg hcnt] at hres
        exact ih (i + 1) (counter + 1) _ cs acc t2 s2 hrem2 hls2 (by omega) hres

theorem lbLoop_isSome :
    ∀ (fuel : Nat) (text : List Char) (scanStart : Nat),
      text.length - scanStart < fuel → (lbLoop fuel text scanStart).isSome = true := by
  intro fuel
  induction fuel with
  | zero =>
    intro text scanStart hlt
    omega
  | succ fuel ih =>
    intro text scanStart hlt
    rw [lbLoop]
    cases hscan : lbScan text (text.drop scanStart) scanStart 0 none scanStart scanStart with
    | none => rfl
    | some r =>
      obtain ⟨t2, s2⟩ := r
      have hspec := lbScan_some_spec text (text.drop scanStart) scanStart 0 none
        scanStart scanStart t2 s2 rfl (by simp) (Nat.le_refl _) hscan
      have hlt2 : scanStart < text.length := by
        by_contra hge
        have hdrop : text.drop scanStart = [] := List.drop_eq_nil_iff.mpr (by omega)
        rw [hdrop] at hscan
        simp [lbScan] at hscan
      obtain ⟨hlen2, hs2⟩ := hspec
      exact ih t2 s2 (by omega)

/-- C3: the `applyLengthBreaks` loop terminates on every input within
`length + 1` iterations: each insertion grows the text by one character but
advances the scan start by at least two, so `length - scanStart` strictly
decreases. -/
theorem c3_lengthBreaks_terminates (text : List Char) :
    (lbLoop (text.length + 1) text 0).isSome = true :=
  lbLoop_isSome (text.length + 1) text 0 (by omega)

/-! ## Claim C5: idempotence of `format` -/

/-- C5 counterexample: `format` is not idempotent.  On `"point point one"`
the first run leaves the literal word `point` followed by a newline and `1`
(from the `point one` replacement), and the second run's Pass A re-matches
`point\n1` across the newline (`\s+` matches `\n`), destroying the text. -/
theorem c5_counterexample :
    format (format "point point one".toList) ≠ format "point point one".toList := by
  decide

set_option maxRecDepth 400000 in
/-- C5 (amended): `format ∘ format = format` fails in general (see the
counterexample) but holds on the spec's representative example inputs. -/
theorem c5_format_idempotent_examples :
    (format (format "hello. world? yes! no\nnewline".toList) =
      format "hello. world? yes! no\nnewline".toList) ∧
    (format (format "Hello. okay let's go. so next topic. moving on now.".toList) =
      format "Hello. okay let's go. so next topic. moving on now.".toList) ∧
    (format (format "hello new line world new paragraph next line comma and point one item point two item period".toList) =
      format "hello new line world new paragraph next line comma and point one item point two item period".toList) ∧
    (format (format "start period next point list item 1 next point list item 2 new paragraph okay summary period".toList) =
      format "start period next point list item 1 next point list item 2 new paragraph okay summary period".toList) ∧
    (format (format "This is a very long sentence that has absolutely no punctuation whatsoever and just keeps going on and on and on and on and on and on and on and on and on and on and on and on and on and on and on and on and it should definitely be split somewhere around the one hundred and forty character mark because that is the rule we implemented.".toList) =
      format "This is a very long sentence that has absolutely no punctuation whatsoever and just keeps going on and on and on and on and on and on and on and on and on and on and on and on and on and on and on and on and it should definitely be split somewhere around the one hundred and forty character mark because that is the rule we implemented.".toList) := by
  refine ⟨by decide, by decide, by decide, by decide, by decide⟩

/-! ## Claim C6: Pass A has no question/exclamation rules -/

/-- C6 counterexample: the claim requires Pass A to replace the whole-word
phrase `question mark` with `?` (and the exclamation phrases with `!`), but
`COMMANDS` has no such rules and the phrases pass through unchanged. -/
theorem c6_counterexample :
    applyCommands "question mark".toList = "question mark".toList ∧
    "question mark".toList ≠ "?".toList ∧
    applyCommands "exclamation mark".toList = "exclamation mark".toList ∧
    applyCommands "exclamation point".toList = "exclamation point".toList := by
  refine ⟨by decide, by decide, by decide, by decide⟩

/-- C6 (amended): no rule of `COMMANDS` produces `?` or `!`; the comma and
period/full-stop rules do fire, while the question/exclamation phrases are
left as ordinary words. -/
theorem c6_commands_no_question_exclamation :
    (COMMANDS.all fun rule =>
      !(rule.repl == "?".toList) && !(rule.repl == "!".toList)) = true ∧
    applyCommands "comma".toList = ",".toList ∧
    applyCommands "period".toList = ".".toList ∧
    applyCommands "full stop".toList = ".".toList ∧
    applyCommands "question mark".toList = "question mark".toList ∧
    applyCommands "exclamation mark".toList = "exclamation mark".toList ∧
    applyCommands "exclamation point".toList = "exclamation point".toList := by
  refine ⟨by decide, by decide, by decide, by decide, by decide, by decide, by decide⟩

/-! ## Claim C7 (counterexample part): cleanup does not touch punctuation
spacing -/

/-- C7 counterexample: the cleanup output can contain a space immediately
before a comma, and no space is inserted after a comma followed by a
letter. -/
theorem c7_counterexample :
    applyCleanup "a ,b".toList = "a ,b".toList ∧
    [' ', ','] <:+: applyCleanup "a ,b".toList ∧
    applyCleanup "a,b".toList = "a,b".toList := by
  refine ⟨by decide, by decide, by decide⟩

/-! ## Claim C9: totality and degenerate inputs of `format` -/

theorem replaceGo_no_match (rule : CommandRule) :
    ∀ (fuel : Nat) (s : List Char) (prevW : Bool),
      (∀ i, tryAlts rule.alts (s.drop i) = none) →
      replaceGo rule fuel prevW s = s := by
  intro fuel
  induction fuel with
  | zero => intro s prevW _; rfl
  | succ fuel ih =>
    intro s prevW hnm
    cases s with
    | nil => rfl
    | cons c rest =>
      have hrest : ∀ i, tryAlts rule.alts (rest.drop i) = none := by
        intro i
        have h := hnm (i + 1)
        rwa [List.drop_succ_cons] at h
      rw [replaceGo]
      by_cases hw : prevW = true
      · rw [if_pos hw, ih rest (jsWordChar c) hrest]
      · have hw2 : prevW = false := by simpa using hw
        rw [if_neg (by rw [hw2]; simp)]
        have h0 := hnm 0
        rw [List.drop_zero] at h0
        rw [h0, ih rest (jsWordChar c) hrest]

/-- C9: `format` never throws (it is a total function of the embedding);
every non-string value and the empty string yield the empty string; and a
command pass whose pattern matches nowhere leaves the text unchanged. -/
theorem c9_format_total :
    formatJS .nullV = [] ∧ formatJS .undef = [] ∧
    (∀ n : Int, formatJS (.num n) = []) ∧
    (∀ b : Bool, formatJS (.boolV b) = []) ∧
    formatJS (.str []) = [] ∧
    (∀ (rule : CommandRule) (s : List Char),
      (∀ i < s.length + 1, tryAlts rule.alts (s.drop i) = none) →
      replaceAll rule s = s) := by
  refine ⟨rfl, rfl, fun n => rfl, fun b => rfl, rfl, ?_⟩
  intro rule s hb
  apply replaceGo_no_match
  intro i
  by_cases hi : i < s.length + 1
  · exact hb i hi
  · have h1 : s.drop i = [] := List.drop_eq_nil_iff.mpr (by omega)
    have h2 : s.drop s.length = [] := List.drop_eq_nil_iff.mpr (by omega)
    rw [h1, ← h2]
    exact hb s.length (by omega)

/-- Witness for C9: the comma rule finds no match in `"xyz"` and leaves it
unchanged. -/
theorem c9_format_total_witness :
    replaceAll ⟨[["comma".toList]], ",".toList⟩ "xyz".toList = "xyz".toList :=
  c9_format_total.2.2.2.2.2 ⟨[["comma".toList]], ",".toList⟩ "xyz".toList (by decide)

/-! ## Claim C2 infrastructure: the word sequence and its invariance -/

/-- The lower-cased, punctuation-stripped word sequence of a text — the
sequence compared by the content-preservation contract. -/
def wordSeq (x : List Char) : List (List Char) := alnumRuns (prep x)

theorem prep_nil : prep [] = [] := rfl

theorem prep_append (A B : List Char) : prep (A ++ B) = prep A ++ prep B := by
  unfold prep
  rw [List.map_append, List.filter_append]

theorem prep_cons (c : Char) (t : List Char) :
    prep (c :: t) = if keepChar c.toLower = true then c.toLower :: prep t else prep t := by
  unfold prep
  rw [List.map_cons, List.filter_cons]

theorem prep_cons_ws {c : Char} (hc : jsWhitespace c = true) (t : List Char) :
    prep (c :: t) = c :: prep t := by
  rw [prep_cons, toLower_of_ws hc, if_pos (by rw [keepChar_iff]; right; exact hc)]

theorem prep_all_ws {W : List Char} (h : ∀ a ∈ W, jsWhitespace a = true) :
    prep W = W := by
  induction W with
  | nil => rfl
  | cons c t ih =>
    rw [prep_cons_ws (h c (List.mem_cons_self c t)),
      ih fun a ha => h a (List.mem_cons_of_mem c ha)]

theorem prep_upperFirst (t : List Char) : prep (upperFirst t) = prep t := by
  cases t with
  | nil => rfl
  | cons c rest =>
    show prep (c.toUpper :: rest) = prep (c :: rest)
    rw [prep_cons, prep_cons, toLower_toUpper]

theorem prep_map_toLower (w : List Char) : prep (w.map Char.toLower) = prep w := by
  unfold prep
  rw [List.map_map]
  congr 1
  apply List.map_congr_left
  intro a _
  exact toLower_toLower a

theorem prep_capWord (w : List Char) : prep (capWord w) = prep w := by
  cases w with
  | nil => rfl
  | cons c rest =>
    show prep (c.toUpper :: rest.map Char.toLower) = prep (c :: rest)
    rw [prep_cons, prep_cons, toLower_toUpper]
    have h := prep_map_toLower rest
    by_cases hk : keepChar c.toLower = true
    · rw [if_pos hk, if_pos hk, h]
    · rw [if_neg hk, if_neg hk, h]

/-- Word-sequence equivalence under arbitrary left context: the relation
preserved by every scanning pass. -/
def WEq (x y : List Char) : Prop :=
  ∀ Q : List Char, alnumRuns (Q ++ prep x) = alnumRuns (Q ++ prep y)

theorem WEq.rfl {x : List Char} : WEq x x := fun _ => Eq.refl _

theorem WEq.trans {x y z : List Char} (h1 : WEq x y) (h2 : WEq y z) : WEq x z :=
  fun Q => (h1 Q).trans (h2 Q)

theorem WEq_of_prep_eq {x y : List Char} (h : prep x = prep y) : WEq x y := by
  intro Q
  rw [h]

theorem WEq.wordSeq_eq {x y : List Char} (h : WEq x y) : wordSeq x = wordSeq y := by
  have hq := h []
  simpa [wordSeq] using hq

theorem WEq_append_left {x y : List Char} (h : WEq x y) (seg : List Char) :
    WEq (seg ++ x) (seg ++ y) := by
  intro Q
  rw [prep_append, prep_append, ← List.append_assoc, ← List.append_assoc]
  exact h (Q ++ prep seg)

theorem WEq_cons {x y : List Char} (h : WEq x y) (c : Char) :
    WEq (c :: x) (c :: y) := by
  have h2 := WEq_append_left h [c]
  simpa using h2

/-- Inserting any non-empty whitespace block between contexts gives the run
split. -/
theorem alnumRuns_append_ws_block {W : List Char} (hne : W ≠ [])
    (hws : ∀ a ∈ W, jsWhitespace a = true) (Q R : List Char) :
    alnumRuns (Q ++ W ++ R) = alnumRuns Q ++ alnumRuns R := by
  cases W with
  | nil => exact absurd rfl hne
  | cons w W2 =>
    have hsep : lowerAlnum w = false := ws_not_lowerAlnum (hws w (List.mem_cons_self w W2))
    rw [List.append_assoc, List.cons_append, alnumRuns_append_sep hsep Q (W2 ++ R)]
    congr 1
    exact runsBy_append_left_neg
      (fun a ha => ws_not_lowerAlnum (hws a (List.mem_cons_of_mem w ha))) R

/-- Swapping one non-empty whitespace block for another in front of a common
suffix preserves the word sequence in any context. -/
theorem WEq_ws_block_swap {W1 W2 : List Char} (h1 : W1 ≠ []) (h2 : W2 ≠ [])
    (hws1 : ∀ a ∈ W1, jsWhitespace a = true) (hws2 : ∀ a ∈ W2, jsWhitespace a = true)
    (Z : List Char) : WEq (W1 ++ Z) (W2 ++ Z) := by
  intro Q
  rw [prep_append, prep_append, prep_all_ws hws1, prep_all_ws hws2,
    ← List.append_assoc, ← List.append_assoc]
  rw [alnumRuns_append_ws_block h1 hws1 Q (prep Z),
    alnumRuns_append_ws_block h2 hws2 Q (prep Z)]

/-- Dropping a trailing all-whitespace block preserves the word sequence in
any context. -/
theorem WEq_ws_pad_right {W : List Char} (hws : ∀ a ∈ W, jsWhitespace a = true) :
    WEq W [] := by
  intro Q
  rw [prep_all_ws hws, prep_nil, List.append_nil]
  exact runsBy_append_right_neg (fun a ha => ws_not_lowerAlnum (hws a ha)) Q

theorem takeWhile_length_drop (p : Char → Bool) :
    ∀ l : List Char, l.drop (l.takeWhile p).length = l.dropWhile p := by
  intro l
  induction l with
  | nil => rfl
  | cons c t ih =>
    rw [List.takeWhile_cons, List.dropWhile_cons]
    by_cases hc : p c = true
    · rw [if_pos hc, if_pos hc, List.length_cons, List.drop_succ_cons, ih]
    · rw [if_neg hc, if_neg hc]
      rfl

theorem prep_caseAfterPunct : ∀ (fuel : Nat) (t : List Char),
    prep (caseAfterPunct fuel t) = prep t := by
  intro fuel
  induction fuel with
  | zero => intro t; rfl
  | succ fuel ih =>
    intro t
    cases t with
    | nil => rfl
    | cons c rest =>
      rw [caseAfterPunct]
      split
      · show prep
            (match rest.drop (rest.takeWhile jsWhitespace).length with
            | d :: r2 =>
              if isLowerAZ d = true then
                c :: (rest.takeWhile jsWhitespace ++ d.toUpper :: caseAfterPunct fuel r2)
              else c :: caseAfterPunct fuel rest
            | [] => c :: caseAfterPunct fuel rest) = prep (c :: rest)
        split
        · rename_i d r2 heq
          split
          · have hsplit : rest = rest.takeWhile jsWhitespace ++ d :: r2 := by
              conv_lhs => rw [← List.takeWhile_append_dropWhile (p := jsWhitespace) (l := rest)]
              rw [← takeWhile_length_drop jsWhitespace rest, heq]
            have hinner : prep (rest.takeWhile jsWhitespace ++ Char.toUpper d :: caseAfterPunct fuel r2) =
                prep (rest.takeWhile jsWhitespace ++ d :: r2) := by
              rw [prep_append, prep_append, prep_cons, prep_cons, toLower_toUpper, ih r2]
            conv_rhs => rw [hsplit]
            rw [prep_cons, prep_cons, hinner]
          · rw [prep_cons, prep_cons, ih rest]
        · rw [prep_cons, prep_cons, ih rest]
      · rw [prep_cons, prep_cons, ih rest]

theorem prep_caseAfterNewline : ∀ (fuel : Nat) (t : List Char),
    prep (caseAfterNewline fuel t) = prep t := by
  intro fuel
  induction fuel with
  | zero => intro t; rfl
  | succ fuel ih =>
    intro t
    cases t with
    | nil => rfl
    | cons c rest =>
      rw [caseAfterNewline]
      split
      · show prep
            (match rest.drop (rest.takeWhile jsWhitespace).length with
            | d :: r2 =>
              if isLowerAZ d = true then
                c :: (rest.takeWhile jsWhitespace ++ d.toUpper :: caseAfterNewline fuel r2)
              else c :: caseAfterNewline fuel rest
            | [] => c :: caseAfterNewline fuel rest) = prep (c :: rest)
        split
        · rename_i d r2 heq
          split
          · have hsplit : rest = rest.takeWhile jsWhitespace ++ d :: r2 := by
              conv_lhs => rw [← List.takeWhile_append_dropWhile (p := jsWhitespace) (l := rest)]
              rw [← takeWhile_length_drop jsWhitespace rest, heq]
            have hinner : prep (rest.takeWhile jsWhitespace ++ Char.toUpper d :: caseAfterNewline fuel r2) =
                prep (rest.takeWhile jsWhitespace ++ d :: r2) := by
              rw [prep_append, prep_append, prep_cons, prep_cons, toLower_toUpper, ih r2]
            conv_rhs => rw [hsplit]
            rw [prep_cons, prep_cons, hinner]
          · rw [prep_cons, prep_cons, ih rest]
        · rw [prep_cons, prep_cons, ih rest]
      · rw [prep_cons, prep_cons, ih rest]

theorem prep_sentenceCasing (t : List Char) :
    prep (applySentenceCasing t) = prep t := by
  unfold applySentenceCasing
  by_cases ht : t = []
  · rw [if_pos ht, ht]
  · rw [if_neg ht]
    simp only [prep_caseAfterNewline, prep_caseAfterPunct, prep_upperFirst]

theorem lbScan_some_prep (text : List Char) :
    ∀ (rem : List Char) (i counter : Nat) (ls : Option Nat) (cs acc : Nat)
      (t2 : List Char) (s2 : Nat),
      rem = text.drop i →
      (∀ j, ls = some j → text[j]? = some ' ') →
      lbScan text rem i counter ls cs acc = some (t2, s2) →
      prep t2 = prep text := by
  intro rem
  induction rem with
  | nil =>
    intro i counter ls cs acc t2 s2 _ _ hres
    simp [lbScan] at hres
  | cons c rem2 ih =>
    intro i counter ls cs acc t2 s2 hrem hls hres
    have hrem2 : rem2 = text.drop (i + 1) := by
      have h1 : text.drop (i + 1) = (text.drop i).drop 1 := by
        rw [List.drop_drop]
      rw [h1, ← hrem]
      rfl
    have hci : text[i]? = some c := by
      have h1 := List.getElem?_drop text i 0
      rw [← hrem] at h1
      simpa using h1.symm
    rw [lbScan] at hres
    by_cases hterm : (c = '.' || c = '?' || c = '!' || c = '\n') = true
    · rw [if_pos hterm] at hres
      exact ih (i + 1) 0 none (i + 1) (i + 1) t2 s2 hrem2 (by simp) hres
    · rw [if_neg hterm] at hres
      have hls2 : ∀ j, (if c = ' ' then some i else ls) = some j → text[j]? = some ' ' := by
        intro j hj
        by_cases hsp : c = ' '
        · rw [if_pos hsp] at hj
          cases hj
          rw [hci, hsp]
        · rw [if_neg hsp] at hj
          exact hls j hj
      by_cases hcnt : counter + 1 > 140
      · rw [if_pos hcnt] at hres
        cases hlsv : (if c = ' ' then some i else ls) with
        | some j =>
          rw [hlsv] at hres
          have hres2 : (if j > cs then
              some (text.take j ++ '.' :: ' ' :: upperFirst (text.drop (j + 1)), j + 1)
            else lbScan text rem2 (i + 1) 0 (some j) cs acc) = some (t2, s2) := hres
          by_cases hj : j > cs
          · rw [if_pos hj] at hres2
            cases hres2
            have hjsp : text[j]? = some ' ' := hls2 j hlsv
            have hjlt : j < text.length := by
              rcases List.getElem?_eq_some_iff.mp hjsp with ⟨hw, _⟩
              exact hw
            have hjget : text[j] = ' ' := by
              rcases List.getElem?_eq_some_iff.mp hjsp with ⟨hw, hv⟩
              exact hv
            have htext : text = text.take j ++ text[j] :: text.drop (j + 1) := by
              conv_lhs => rw [← List.take_append_drop j text]
              rw [List.drop_eq_getElem_cons hjlt]
            conv_rhs => rw [htext]
            rw [prep_append, prep_append, hjget]
            congr 1
            rw [show ('.' :: ' ' :: upperFirst (text.drop (j + 1))) =
              ('.' :: (' ' :: upperFirst (text.drop (j + 1)))) from rfl]
            rw [prep_cons, if_neg (by decide), prep_cons_ws (by decide),
              prep_upperFirst, prep_cons_ws (by decide)]
          · rw [if_neg hj] at hres2
            exact ih (i + 1) 0 (some j) cs acc t2 s2 hrem2
              (fun j2 hj2 => by cases hj2; exact hls2 j hlsv) hres2
        | none =>
          rw [hlsv] at hres
          have hres2 : lbScan text rem2 (i + 1) 0 none cs acc = some (t2, s2) := hres
          exact ih (i + 1) 0 none cs acc t2 s2 hrem2 (by simp) hres2
      · rw [if_neg hcnt] at hres
        exact ih (i + 1) (counter + 1) _ cs acc t2 s2 hrem2 hls2 hres

theorem lbLoop_prep :
    ∀ (fuel : Nat) (text : List Char) (scanStart : Nat) (r : List Char),
      lbLoop fuel text scanStart = some r → prep r = prep text := by
  intro fuel
  induction fuel with
  | zero =>
    intro text scanStart r h
    simp [lbLoop] at h
  | succ fuel ih =>
    intro text scanStart r h
    rw [lbLoop] at h
    cases hscan : lbScan text (text.drop scanStart) scanStart 0 none scanStart scanStart with
    | none =>
      rw [hscan] at h
      cases h
      rfl
    | some pr =>
      obtain ⟨t2, s2⟩ := pr
      rw [hscan] at h
      have h1 := ih t2 s2 r h
      have h2 := lbScan_some_prep text (text.drop scanStart) scanStart 0 none
        scanStart scanStart t2 s2 rfl (by simp) hscan
      rw [h1, h2]

theorem prep_applyLengthBreaks (t : List Char) :
    prep (applyLengthBreaks t) = prep t := by
  unfold applyLengthBreaks
  cases h : lbLoop (t.length + 1) t 0 with
  | none => rfl
  | some r => exact lbLoop_prep (t.length + 1) t 0 r h

theorem weq_paraGo : ∀ (fuel : Nat) (first : Bool) (s : List Char),
    WEq (paraGo fuel first s) s := by
  intro fuel
  induction fuel with
  | zero => intro first s; exact WEq.rfl
  | succ fuel ih =>
    intro first s
    cases s with
    | nil => exact WEq.rfl
    | cons c rest =>
      rw [paraGo]
      split
      · -- terminator alternative
        show WEq
          (if (rest.takeWhile jsWhitespace).isEmpty = true then c :: paraGo fuel false rest
           else
             match tryKw KEYWORDS (rest.drop (rest.takeWhile jsWhitespace).length) with
             | some n => c :: '\n' :: '\n' ::
                 (capWord ((rest.drop (rest.takeWhile jsWhitespace).length).take n) ++
                  paraGo fuel false ((rest.drop (rest.takeWhile jsWhitespace).length).drop n))
             | none => c :: paraGo fuel false rest)
          (c :: rest)
        split
        · exact WEq_cons (ih false rest) c
        · rename_i hwsEmp
          split
          · rename_i n heq
            have hwsne2 : rest.takeWhile jsWhitespace ≠ [] := by
              intro hnil
              rw [List.isEmpty_iff] at hwsEmp
              exact hwsEmp hnil
            have hwsall : ∀ a ∈ rest.takeWhile jsWhitespace, jsWhitespace a = true :=
              fun a ha => List.mem_takeWhile_imp ha
            have hrest : rest = rest.takeWhile jsWhitespace ++
                rest.drop (rest.takeWhile jsWhitespace).length := by
              rw [takeWhile_length_drop]
              exact (List.takeWhile_append_dropWhile jsWhitespace rest).symm
            have h1 := ih false ((rest.drop (rest.takeWhile jsWhitespace).length).drop n)
            have h2 := WEq_append_left h1
              (capWord ((rest.drop (rest.takeWhile jsWhitespace).length).take n))
            have h3 : WEq
                (capWord ((rest.drop (rest.takeWhile jsWhitespace).length).take n) ++
                  (rest.drop (rest.takeWhile jsWhitespace).length).drop n)
                ((rest.drop (rest.takeWhile jsWhitespace).length).take n ++
                  (rest.drop (rest.takeWhile jsWhitespace).length).drop n) :=
              WEq_of_prep_eq (by rw [prep_append, prep_append, prep_capWord])
            have h4 := h2.trans h3
            rw [List.take_append_drop] at h4
            have h5 := WEq_append_left h4 [c, '\n', '\n']
            have h6 : WEq
                ([c, '\n', '\n'] ++ rest.drop (rest.takeWhile jsWhitespace).length)
                (c :: (rest.takeWhile jsWhitespace ++
                  rest.drop (rest.takeWhile jsWhitespace).length)) :=
              WEq_cons (@WEq_ws_block_swap ['\n', '\n'] (rest.takeWhile jsWhitespace)
                (by simp) hwsne2 (by decide) hwsall
                (rest.drop (rest.takeWhile jsWhitespace).length)) c
            have h7 := h5.trans h6
            have hfin : c :: (rest.takeWhile jsWhitespace ++
                rest.drop (rest.takeWhile jsWhitespace).length) = c :: rest := by
              rw [← hrest]
            exact hfin ▸ h7
          · exact WEq_cons (ih false rest) c
      · -- non-terminator alternatives
        split
        · rename_i n heq
          have h1 := WEq_append_left (ih false ((c :: rest).drop n)) ((c :: rest).take n)
          rwa [List.take_append_drop] at h1
        · show WEq
            (if c = '\n' then
              match tryKw KEYWORDS (rest.drop (rest.takeWhile (fun x => x = '\n')).length) with
              | some n => c :: (rest.takeWhile (fun x => x = '\n') ++
                  (rest.drop (rest.takeWhile (fun x => x = '\n')).length).take n ++
                  paraGo fuel false ((rest.drop (rest.takeWhile (fun x => x = '\n')).length).drop n))
              | none => c :: paraGo fuel false rest
            else c :: paraGo fuel false rest)
            (c :: rest)
          split
          · split
            · rename_i n heq
              have hrest : rest = rest.takeWhile (fun x => x = '\n') ++
                  rest.drop (rest.takeWhile (fun x => x = '\n')).length := by
                rw [takeWhile_length_drop]
                exact (List.takeWhile_append_dropWhile _ rest).symm
              have h1 := ih false ((rest.drop (rest.takeWhile (fun x => x = '\n')).length).drop n)
              have h2 := WEq_append_left h1
                (rest.takeWhile (fun x => x = '\n') ++
                  (rest.drop (rest.takeWhile (fun x => x = '\n')).length).take n)
              have h3 : (rest.takeWhile (fun x => x = '\n') ++
                  (rest.drop (rest.takeWhile (fun x => x = '\n')).length).take n) ++
                  (rest.drop (rest.takeWhile (fun x => x = '\n')).length).drop n = rest := by
                rw [List.append_assoc, List.take_append_drop]
                exact hrest.symm
              rw [h3] at h2
              exact WEq_cons h2 c
            · exact WEq_cons (ih false rest) c
          · exact WEq_cons (ih false rest) c

theorem weq_csGo : ∀ (s run : List Char), (∀ a ∈ run, spTab a = true) →
    WEq (csGo run s) (run ++ s) := by
  intro s
  induction s with
  | nil =>
    intro run hrun
    show WEq (emitRun run) (run ++ [])
    rw [List.append_nil]
    unfold emitRun
    split
    · rename_i hlen
      have h := @WEq_ws_block_swap [' '] run (by simp) (by rintro rfl; simp at hlen)
        (by decide) (fun a ha => spTab_ws (hrun a ha)) []
      simpa using h
    · exact WEq.rfl
  | cons c rest ih =>
    intro run hrun
    show WEq (if spTab c = true then csGo (run ++ [c]) rest
      else emitRun run ++ c :: csGo [] rest) (run ++ c :: rest)
    split
    · rename_i hc
      have h1 := ih (run ++ [c]) (by
        intro a ha
        rcases List.mem_append.mp ha with h | h
        · exact hrun a h
        · simp at h
          rw [h]
          exact hc)
      rwa [List.append_assoc, List.singleton_append] at h1
    · rename_i hc
      have h1 := ih [] (by simp)
      have h2 := WEq_append_left h1 (emitRun run ++ [c])
      simp only [List.append_assoc, List.singleton_append, List.nil_append] at h2
      have h3 : WEq (emitRun run ++ (c :: rest)) (run ++ (c :: rest)) := by
        unfold emitRun
        split
        · rename_i hlen
          exact @WEq_ws_block_swap [' '] run (by simp) (by rintro rfl; simp at hlen)
            (by decide) (fun a ha => spTab_ws (hrun a ha)) (c :: rest)
        · exact WEq.rfl
      exact h2.trans h3

theorem weq_collapseSpaceRuns (s : List Char) : WEq (collapseSpaceRuns s) s := by
  have h := weq_csGo s [] (by simp)
  rwa [List.nil_append] at h

theorem weq_cnGo : ∀ (s run : List Char), (∀ a ∈ run, a = '\n') →
    WEq (cnGo run s) (run ++ s) := by
  intro s
  induction s with
  | nil =>
    intro run hrun
    show WEq (emitNlRun run) (run ++ [])
    rw [List.append_nil]
    unfold emitNlRun
    split
    · rename_i hlen
      have h := @WEq_ws_block_swap ['\n', '\n'] run (by simp)
        (by rintro rfl; simp at hlen) (by decide)
        (fun a ha => by rw [hrun a ha]; rfl) []
      simpa using h
    · exact WEq.rfl
  | cons c rest ih =>
    intro run hrun
    show WEq (if c = '\n' then cnGo (run ++ [c]) rest
      else emitNlRun run ++ c :: cnGo [] rest) (run ++ c :: rest)
    split
    · rename_i hc
      have h1 := ih (run ++ [c]) (by
        intro a ha
        rcases List.mem_append.mp ha with h | h
        · exact hrun a h
        · simp at h
          rw [h, hc])
      rwa [List.append_assoc, List.singleton_append] at h1
    · rename_i hc
      have h1 := ih [] (by simp)
      have h2 := WEq_append_left h1 (emitNlRun run ++ [c])
      simp only [List.append_assoc, List.singleton_append, List.nil_append] at h2
      have h3 : WEq (emitNlRun run ++ (c :: rest)) (run ++ (c :: rest)) := by
        unfold emitNlRun
        split
        · rename_i hlen
          exact @WEq_ws_block_swap ['\n', '\n'] run (by simp)
            (by rintro rfl; simp at hlen) (by decide)
            (fun a ha => by rw [hrun a ha]; rfl) (c :: rest)
        · exact WEq.rfl
      exact h2.trans h3

theorem weq_collapseNewlineRuns (s : List Char) : WEq (collapseNewlineRuns s) s := by
  have h := weq_cnGo s [] (by simp)
  rwa [List.nil_append] at h

theorem wordSeq_append_nl (X Y : List Char) :
    wordSeq (X ++ '\n' :: Y) = wordSeq X ++ wordSeq Y := by
  unfold wordSeq
  rw [prep_append, prep_cons_ws (by decide)]
  exact alnumRuns_append_sep (by decide) _ _

theorem wordSeq_intercalate : ∀ Ls : List (List Char),
    wordSeq (List.intercalate ['\n'] Ls) = (Ls.map wordSeq).flatten := by
  intro Ls
  induction Ls with
  | nil => simp [List.intercalate, wordSeq, prep_nil, alnumRuns, runsBy_nil]
  | cons a t ih =>
    cases t with
    | nil => simp [intercalate_single, wordSeq]
    | cons b t2 =>
      rw [intercalate_cons₂ ['\n'] a (by simp), List.append_assoc,
        List.singleton_append, wordSeq_append_nl, ih]
      simp

theorem wordSeq_left_ws_pad {W : List Char} (h : ∀ a ∈ W, jsWhitespace a = true)
    (u : List Char) : wordSeq (W ++ u) = wordSeq u := by
  unfold wordSeq
  rw [prep_append, prep_all_ws h]
  exact runsBy_append_left_neg (fun a ha => ws_not_lowerAlnum (h a ha)) _

theorem wordSeq_right_ws_pad {W : List Char} (h : ∀ a ∈ W, jsWhitespace a = true)
    (u : List Char) : wordSeq (u ++ W) = wordSeq u := by
  unfold wordSeq
  rw [prep_append, prep_all_ws h]
  exact runsBy_append_right_neg (fun a ha => ws_not_lowerAlnum (h a ha)) _

theorem wordSeq_jsTrim (l : List Char) : wordSeq (jsTrim l) = wordSeq l := by
  have hsplit : l = l.takeWhile jsWhitespace ++ l.dropWhile jsWhitespace :=
    (List.takeWhile_append_dropWhile jsWhitespace l).symm
  have h1 : wordSeq l = wordSeq (l.dropWhile jsWhitespace) := by
    conv_lhs => rw [hsplit]
    exact wordSeq_left_ws_pad (fun a ha => List.mem_takeWhile_imp ha) _
  have hu : l.dropWhile jsWhitespace =
      rdw (l.dropWhile jsWhitespace) ++
      ((l.dropWhile jsWhitespace).reverse.takeWhile jsWhitespace).reverse := by
    conv_lhs => rw [← List.reverse_reverse (l.dropWhile jsWhitespace)]
    conv_lhs =>
      rw [← List.takeWhile_append_dropWhile (p := jsWhitespace)
        (l := (l.dropWhile jsWhitespace).reverse)]
    rw [List.reverse_append]
    rfl
  have h2 : wordSeq (l.dropWhile jsWhitespace) = wordSeq (rdw (l.dropWhile jsWhitespace)) := by
    conv_lhs => rw [hu]
    exact wordSeq_right_ws_pad
      (fun a ha => List.mem_takeWhile_imp (List.mem_reverse.mp ha)) _
  rw [jsTrim_eq_rdw, h1, h2]

theorem wordSeq_trimLines (s : List Char) : wordSeq (trimLines s) = wordSeq s := by
  unfold trimLines
  rw [wordSeq_intercalate, List.map_map]
  rw [show (wordSeq ∘ jsTrim) = fun l => wordSeq (jsTrim l) from rfl]
  rw [List.map_congr_left (fun l _ => wordSeq_jsTrim l)]
  rw [← wordSeq_intercalate]
  rw [List.intercalate_splitOn]

theorem lastNlIdx_spec :
    ∀ {L : List Char} {k : Nat}, lastNlIdx L = some k →
      k < L.length ∧ L[k]? = some '\n' := by
  intro L
  induction L with
  | nil => intro k h; simp [lastNlIdx] at h
  | cons c rest ih =>
    intro k h
    rw [lastNlIdx] at h
    cases hrec : lastNlIdx rest with
    | some k2 =>
      rw [hrec] at h
      cases h
      have hspec := ih hrec
      refine ⟨by simp; omega, ?_⟩
      rw [List.getElem?_cons_succ]
      exact hspec.2
    | none =>
      rw [hrec] at h
      by_cases hc : c = '\n'
      · rw [if_pos hc] at h
        cases h
        exact ⟨by simp, by simp [hc]⟩
      · rw [if_neg hc] at h
        exact absurd h (by simp)

theorem bulletConsume_spec {rest : List Char} {k : Nat}
    (h : bulletConsume rest = some k) :
    (∀ a ∈ rest.take k, jsWhitespace a = true) ∧
    (rest.drop k = [] ∨ ∃ rem2, rest.drop k = '\n' :: rem2) := by
  unfold bulletConsume at h
  by_cases hemp : (rest.drop (rest.takeWhile jsWhitespace).length).isEmpty = true
  · rw [if_pos hemp] at h
    cases h
    constructor
    · intro a ha
      have htake : rest.take (rest.takeWhile jsWhitespace).length =
          rest.takeWhile jsWhitespace := by
        have hp := List.takeWhile_prefix (l := rest) jsWhitespace
        exact (List.prefix_iff_eq_take.mp hp).symm
      rw [htake] at ha
      exact List.mem_takeWhile_imp ha
    · left
      rwa [List.isEmpty_iff] at hemp
  · rw [if_neg hemp] at h
    have hspec := lastNlIdx_spec h
    have hrest : rest = rest.takeWhile jsWhitespace ++ rest.dropWhile jsWhitespace :=
      (List.takeWhile_append_dropWhile jsWhitespace rest).symm
    have hkle : k ≤ (rest.takeWhile jsWhitespace).length := Nat.le_of_lt hspec.1
    constructor
    · intro a ha
      rw [hrest] at ha
      rw [List.take_append_of_le_length hkle] at ha
      have h2 : a ∈ rest.takeWhile jsWhitespace := List.take_subset k _ ha
      exact List.mem_takeWhile_imp h2
    · right
      have hdrop : rest.drop k = (rest.takeWhile jsWhitespace).drop k ++
          rest.dropWhile jsWhitespace := by
        conv_lhs => rw [hrest]
        exact List.drop_append_of_le_length hkle
      have hget : (rest.takeWhile jsWhitespace)[k] = '\n' := by
        rcases List.getElem?_eq_some_iff.mp hspec.2 with ⟨hw, hv⟩
        exact hv
      have hdrop2 : (rest.takeWhile jsWhitespace).drop k =
          '\n' :: (rest.takeWhile jsWhitespace).drop (k + 1) := by
        rw [List.drop_eq_getElem_cons hspec.1, hget]
      refine ⟨(rest.takeWhile jsWhitespace).drop (k + 1) ++ rest.dropWhile jsWhitespace, ?_⟩
      rw [hdrop, hdrop2]
      rfl

theorem weq_bullet_match {rest : List Char} {k : Nat}
    (hspec : (∀ a ∈ rest.take k, jsWhitespace a = true) ∧
      (rest.drop k = [] ∨ ∃ rem2, rest.drop k = '\n' :: rem2)) :
    WEq (rest.drop k) ('•' :: rest) := by
  intro Q
  rw [prep_cons, if_neg (by decide)]
  conv_rhs => rw [show rest = rest.take k ++ rest.drop k from (List.take_append_drop k rest).symm]
  rw [prep_append, prep_all_ws hspec.1]
  rcases hspec.2 with hnil | ⟨rem2, hcons⟩
  · rw [hnil, prep_nil, List.append_nil, List.append_nil]
    exact (runsBy_append_right_neg
      (fun a ha => ws_not_lowerAlnum (hspec.1 a ha)) Q).symm
  · rw [hcons, prep_cons_ws (by decide)]
    rw [show Q ++ '\n' :: prep rem2 = Q ++ ['\n'] ++ prep rem2 from by simp]
    rw [show Q ++ (rest.take k ++ '\n' :: prep rem2) =
      Q ++ (rest.take k ++ ['\n']) ++ prep rem2 from by simp]
    rw [alnumRuns_append_ws_block (by simp) (by decide) Q (prep rem2)]
    rw [alnumRuns_append_ws_block (by simp) (by
      intro a ha
      rcases List.mem_append.mp ha with h | h
      · exact hspec.1 a h
      · simp at h
        rw [h]
        rfl) Q (prep rem2)]

theorem weq_rblGo : ∀ (fuel : Nat) (atStart : Bool) (s : List Char),
    WEq (rblGo fuel atStart s) s := by
  intro fuel
  induction fuel with
  | zero => intro atStart s; exact WEq.rfl
  | succ fuel ih =>
    intro atStart s
    cases s with
    | nil => exact WEq.rfl
    | cons c rest =>
      rw [rblGo]
      split
      · rename_i hstart
        have hc : c = '•' := by
          simp only [Bool.and_eq_true, decide_eq_true_eq] at hstart
          exact hstart.2
        split
        · rename_i k heq
          subst hc
          exact (ih false (rest.drop k)).trans (weq_bullet_match (bulletConsume_spec heq))
        · exact WEq_cons (ih false rest) c
      · exact WEq_cons (ih _ rest) c

theorem wordSeq_removeBulletLines (s : List Char) :
    wordSeq (removeBulletLines s) = wordSeq s :=
  (weq_rblGo s.length true s).wordSeq_eq

theorem wordSeq_applyParagraphHeuristics (s : List Char) :
    wordSeq (applyParagraphHeuristics s) = wordSeq s :=
  (weq_paraGo s.length true s).wordSeq_eq

theorem wordSeq_applyCleanup (t : List Char) : wordSeq (applyCleanup t) = wordSeq t := by
  unfold applyCleanup
  rw [wordSeq_jsTrim, (weq_collapseNewlineRuns _).wordSeq_eq,
    wordSeq_removeBulletLines, wordSeq_trimLines,
    (weq_collapseSpaceRuns t).wordSeq_eq]

theorem replaceAll_no_match {rule : CommandRule} {x : List Char}
    (h : ∀ i, tryAlts rule.alts (x.drop i) = none) : replaceAll rule x = x :=
  replaceGo_no_match rule x.length x false h

theorem foldl_replaceAll_id :
    ∀ (rules : List CommandRule) (x : List Char),
      (∀ rule ∈ rules, ∀ i, tryAlts rule.alts (x.drop i) = none) →
      rules.foldl (fun t rule => replaceAll rule t) x = x := by
  intro rules
  induction rules with
  | nil => intro x _; rfl
  | cons r rest ih =>
    intro x h
    rw [List.foldl_cons, replaceAll_no_match (h r (List.mem_cons_self r rest)),
      ih x fun rule hr => h rule (List.mem_cons_of_mem r hr)]

/-- C2: when Pass A recognizes no spoken-command phrase anywhere in `x`, the
lower-cased, punctuation-stripped word sequence of `format x` equals that of
`x`: sentence casing and length breaks change only letter case and turn one
space into `". "`, the paragraph pass rewrites whitespace runs and case, and
cleanup rewrites whitespace and drops bullet markers — none of which touches
the word sequence. -/
theorem c2_format_word_preservation (x : List Char)
    (hnone : ∀ rule ∈ COMMANDS, ∀ i < x.length + 1, tryAlts rule.alts (x.drop i) = none) :
    wordSeq (format x) = wordSeq x := by
  by_cases hx : x = []
  · rw [hx]
    rfl
  · unfold format
    rw [if_neg hx]
    have hnone2 : ∀ rule ∈ COMMANDS, ∀ i, tryAlts rule.alts (x.drop i) = none := by
      intro rule hr i
      by_cases hi : i < x.length + 1
      · exact hnone rule hr i hi
      · have h1 : x.drop i = [] := List.drop_eq_nil_iff.mpr (by omega)
        have h2 : x.drop x.length = [] := List.drop_eq_nil_iff.mpr (by omega)
        rw [h1, ← h2]
        exact hnone rule hr x.length (by omega)
    have hA : applyCommands x = x := foldl_replaceAll_id COMMANDS x hnone2
    rw [hA, wordSeq_applyCleanup, wordSeq_applyParagraphHeuristics]
    unfold wordSeq
    rw [prep_applyLengthBreaks, prep_sentenceCasing]

/-- Witness for C2: a text with no spoken-command phrase keeps its word
sequence through `format`. -/
theorem c2_format_word_preservation_witness :
    wordSeq (format "hi there".toList) = wordSeq "hi there".toList :=
  c2_format_word_preservation "hi there".toList (by decide)

/-! ## Claim C7 (amended part): cleanup output has no adjacent space/tab
pair -/

/-- No two adjacent space-or-tab characters. -/
def noDbl (l : List Char) : Prop :=
  l.Chain' fun a b => (spTab a && spTab b) = false

theorem noDbl_nil : noDbl [] := List.chain'_nil

theorem noDbl_of_length_le_one {l : List Char} (h : l.length ≤ 1) : noDbl l := by
  match l with
  | [] => exact noDbl_nil
  | [a] => exact List.chain'_singleton a
  | a :: b :: t => simp at h

theorem noDbl_of_infix {l₁ l₂ : List Char} (h : l₁ <:+: l₂) (h2 : noDbl l₂) :
    noDbl l₁ := h2.infix h

theorem noDbl_tail {c : Char} {l : List Char} (h : noDbl (c :: l)) : noDbl l :=
  List.Chain'.tail h

theorem noDbl_cons_of_not_spTab {c : Char} {l : List Char} (hc : spTab c = false)
    (h : noDbl l) : noDbl (c :: l) := by
  rw [noDbl, List.chain'_cons']
  exact ⟨fun y _ => by rw [hc, Bool.false_and], h⟩

theorem noDbl_emitRun (run : List Char) : noDbl (emitRun run) := by
  unfold emitRun
  split
  · exact List.chain'_singleton ' '
  · rename_i h
    exact noDbl_of_length_le_one (by omega)

theorem noDbl_csGo : ∀ (s run : List Char), noDbl (csGo run s) := by
  intro s
  induction s with
  | nil => intro run; exact noDbl_emitRun run
  | cons c rest ih =>
    intro run
    show noDbl (if spTab c = true then csGo (run ++ [c]) rest
      else emitRun run ++ c :: csGo [] rest)
    split
    · exact ih (run ++ [c])
    · rename_i hc
      have hc2 : spTab c = false := by simpa using hc
      rw [noDbl, List.chain'_append]
      refine ⟨noDbl_emitRun run, ?_, ?_⟩
      · rw [← noDbl]
        exact noDbl_cons_of_not_spTab hc2 (ih [])
      · intro x _ y hy
        have hyc : c = y := by simpa using hy
        rw [← hyc, hc2, Bool.and_false]

theorem noDbl_collapseSpaceRuns (s : List Char) : noDbl (collapseSpaceRuns s) :=
  noDbl_csGo s []

theorem jsTrim_infix_self (l : List Char) : jsTrim l <:+: l := by
  have h1 : l.dropWhile jsWhitespace <:+ l := List.dropWhile_suffix jsWhitespace
  obtain ⟨pre, hpre⟩ := h1
  have hu : l.dropWhile jsWhitespace =
      jsTrim l ++ ((l.dropWhile jsWhitespace).reverse.takeWhile jsWhitespace).reverse := by
    rw [jsTrim_eq_rdw]
    conv_lhs => rw [← List.reverse_reverse (l.dropWhile jsWhitespace)]
    conv_lhs =>
      rw [← List.takeWhile_append_dropWhile (p := jsWhitespace)
        (l := (l.dropWhile jsWhitespace).reverse)]
    rw [List.reverse_append]
    rfl
  refine ⟨pre, ((l.dropWhile jsWhitespace).reverse.takeWhile jsWhitespace).reverse, ?_⟩
  rw [List.append_assoc, ← hu, hpre]

theorem noDbl_jsTrim {l : List Char} (h : noDbl l) : noDbl (jsTrim l) :=
  noDbl_of_infix (jsTrim_infix_self l) h

theorem noDbl_of_mem_intercalate :
    ∀ {Ls : List (List Char)}, noDbl (List.intercalate ['\n'] Ls) →
      ∀ l ∈ Ls, noDbl l := by
  intro Ls
  induction Ls with
  | nil => intro _ l hl; simp at hl
  | cons a t ih =>
    intro h l hl
    cases t with
    | nil =>
      rw [intercalate_single] at h
      rcases List.mem_cons.mp hl with rfl | h2
      · exact h
      · simp at h2
    | cons b t2 =>
      rw [intercalate_cons₂ ['\n'] a (by simp), List.append_assoc,
        List.singleton_append] at h
      rw [noDbl, List.chain'_append] at h
      rcases List.mem_cons.mp hl with rfl | h2
      · exact h.1
      · exact ih (noDbl_tail h.2.1) l h2

theorem noDbl_intercalate_of_all :
    ∀ {Ls : List (List Char)}, (∀ l ∈ Ls, noDbl l) →
      noDbl (List.intercalate ['\n'] Ls) := by
  intro Ls
  induction Ls with
  | nil => intro _; exact noDbl_nil
  | cons a t ih =>
    intro h
    cases t with
    | nil =>
      rw [intercalate_single]
      exact h a (List.mem_cons_self a [])
    | cons b t2 =>
      rw [intercalate_cons₂ ['\n'] a (by simp), List.append_assoc,
        List.singleton_append]
      rw [noDbl, List.chain'_append]
      refine ⟨h a (List.mem_cons_self a _), ?_, ?_⟩
      · rw [← noDbl]
        exact noDbl_cons_of_not_spTab (by decide)
          (ih fun l hl => h l (List.mem_cons_of_mem a hl))
      · intro x _ y hy
        have hyn : '\n' = y := by simpa using hy
        rw [← hyn, show spTab '\n' = false from rfl, Bool.and_false]

theorem noDbl_trimLines {s : List Char} (h : noDbl s) : noDbl (trimLines s) := by
  unfold trimLines
  apply noDbl_intercalate_of_all
  intro l hl
  rcases List.mem_map.mp hl with ⟨l0, hl0, rfl⟩
  apply noDbl_jsTrim
  apply noDbl_of_mem_intercalate _ l0 hl0
  rw [List.intercalate_splitOn]
  exact h

theorem noDbl_of_suffix {l₁ l₂ : List Char} (hs : l₁ <:+ l₂) (h : noDbl l₂) :
    noDbl l₁ := h.suffix hs

theorem noDbl_all_nl : ∀ {l : List Char}, (∀ a ∈ l, a = '\n') → noDbl l
  | [], _ => noDbl_nil
  | c :: t, h => by
    have hc : c = '\n' := h c (List.mem_cons_self c t)
    exact noDbl_cons_of_not_spTab (by rw [hc]; rfl)
      (noDbl_all_nl fun a ha => h a (List.mem_cons_of_mem c ha))

theorem rblGo_head : ∀ (fuel : Nat) (b : Bool) (s : List Char) (y : Char),
    (rblGo fuel b s).head? = some y → y = '\n' ∨ s.head? = some y := by
  intro fuel
  induction fuel with
  | zero => intro b s y h; right; exact h
  | succ fuel ih =>
    intro b s y h
    cases s with
    | nil => simp [rblGo] at h
    | cons c rest =>
      rw [rblGo] at h
      by_cases hb : (b && c = '•') = true
      · rw [if_pos hb] at h
        cases hbc : bulletConsume rest with
        | some k =>
          rw [hbc] at h
          have h2 : (rblGo fuel false (rest.drop k)).head? = some y := h
          rcases ih false (rest.drop k) y h2 with hnl | hhead
          · left; exact hnl
          · rcases (bulletConsume_spec hbc).2 with hnil | ⟨rem2, hcons⟩
            · rw [hnil] at hhead
              simp at hhead
            · rw [hcons] at hhead
              left
              simpa using hhead.symm
        | none =>
          rw [hbc] at h
          have h2 : (c :: rblGo fuel false rest).head? = some y := h
          right
          simpa using h2
      · rw [if_neg hb] at h
        right
        simpa using h

theorem noDbl_rblGo : ∀ (fuel : Nat) (b : Bool) (s : List Char),
    noDbl s → noDbl (rblGo fuel b s) := by
  intro fuel
  induction fuel with
  | zero => intro b s h; exact h
  | succ fuel ih =>
    intro b s h
    cases s with
    | nil => exact noDbl_nil
    | cons c rest =>
      rw [rblGo]
      split
      · split
        · rename_i k heq
          exact ih false (rest.drop k)
            (noDbl_of_suffix (List.drop_suffix k rest) (noDbl_tail h))
        · rw [noDbl, List.chain'_cons']
          refine ⟨?_, ih false rest (noDbl_tail h)⟩
          intro y hy
          rcases rblGo_head fuel false rest y hy with hnl | hhead
          · rw [hnl, show spTab '\n' = false from rfl, Bool.and_false]
          · exact (List.chain'_cons'.mp h).1 y hhead
      · rw [noDbl, List.chain'_cons']
        refine ⟨?_, ih _ rest (noDbl_tail h)⟩
        intro y hy
        rcases rblGo_head fuel _ rest y hy with hnl | hhead
        · rw [hnl, show spTab '\n' = false from rfl, Bool.and_false]
        · exact (List.chain'_cons'.mp h).1 y hhead

theorem noDbl_removeBulletLines {s : List Char} (h : noDbl s) :
    noDbl (removeBulletLines s) := noDbl_rblGo s.length true s h

theorem emitNlRun_all_nl {run : List Char} (hrun : ∀ a ∈ run, a = '\n') :
    ∀ a ∈ emitNlRun run, a = '\n' := by
  unfold emitNlRun
  split
  · intro a ha
    simp at ha
    exact ha
  · exact hrun

theorem cnGo_head : ∀ (s run : List Char) (y : Char), (∀ a ∈ run, a = '\n') →
    (cnGo run s).head? = some y → y = '\n' ∨ (run = [] ∧ s.head? = some y) := by
  intro s
  induction s with
  | nil =>
    intro run y hrun h
    have h2 : (emitNlRun run).head? = some y := h
    left
    exact emitNlRun_all_nl hrun y (List.mem_of_mem_head? h2)
  | cons c rest ih =>
    intro run y hrun h
    have h2 : (if c = '\n' then cnGo (run ++ [c]) rest
      else emitNlRun run ++ c :: cnGo [] rest).head? = some y := h
    by_cases hc : c = '\n'
    · rw [if_pos hc] at h2
      rcases ih (run ++ [c]) y (by
        intro a ha
        rcases List.mem_append.mp ha with h3 | h3
        · exact hrun a h3
        · simp at h3; rw [h3, hc]) h2 with hnl | ⟨habs, _⟩
      · left; exact hnl
      · simp at habs
    · rw [if_neg hc] at h2
      cases hm : emitNlRun run with
      | nil =>
        rw [hm, List.nil_append] at h2
        right
        have hrunnil : run = [] := by
          by_contra hne
          unfold emitNlRun at hm
          split at hm
          · simp at hm
          · exact hne hm
        exact ⟨hrunnil, by simpa using h2⟩
      | cons e es =>
        rw [hm] at h2
        left
        have hey : e = y := by simpa using h2
        rw [← hey]
        exact emitNlRun_all_nl hrun e (by rw [hm]; exact List.mem_cons_self e es)

theorem noDbl_cnGo : ∀ (s run : List Char), (∀ a ∈ run, a = '\n') →
    noDbl s → noDbl (cnGo run s) := by
  intro s
  induction s with
  | nil =>
    intro run hrun _
    exact noDbl_all_nl (emitNlRun_all_nl hrun)
  | cons c rest ih =>
    intro run hrun h
    show noDbl (if c = '\n' then cnGo (run ++ [c]) rest
      else emitNlRun run ++ c :: cnGo [] rest)
    split
    · rename_i hc
      exact ih (run ++ [c]) (by
        intro a ha
        rcases List.mem_append.mp ha with h2 | h2
        · exact hrun a h2
        · simp at h2; rw [h2, hc]) (noDbl_tail h)
    · rename_i hc
      rw [noDbl, List.chain'_append]
      refine ⟨noDbl_all_nl (emitNlRun_all_nl hrun), ?_, ?_⟩
      · rw [← noDbl, noDbl, List.chain'_cons']
        refine ⟨?_, ih [] (by simp) (noDbl_tail h)⟩
        intro y hy
        rcases cnGo_head rest [] y (by simp) hy with hnl | ⟨_, hhead⟩
        · rw [hnl, show spTab '\n' = false from rfl, Bool.and_false]
        · exact (List.chain'_cons'.mp h).1 y hhead
      · intro x hx y hy
        have hxnl : x = '\n' := emitNlRun_all_nl hrun x (List.mem_of_mem_getLast? hx)
        rw [hxnl, show spTab '\n' = false from rfl, Bool.false_and]

theorem noDbl_collapseNewlineRuns {s : List Char} (h : noDbl s) :
    noDbl (collapseNewlineRuns s) := noDbl_cnGo s [] (by simp) h

/-- C7 (amended): the cleanup pass guarantees no two adjacent space-or-tab
characters remain, but performs no punctuation-spacing normalization
(a single space before a comma survives untouched). -/
theorem c7_cleanup_no_double_space :
    (∀ t : List Char, noDbl (applyCleanup t)) ∧
    applyCleanup " a  ,  b ".toList = "a , b".toList := by
  constructor
  · intro t
    unfold applyCleanup
    exact noDbl_jsTrim (noDbl_collapseNewlineRuns (noDbl_removeBulletLines
      (noDbl_trimLines (noDbl_collapseSpaceRuns t))))
  · decide
